import Mathlib

/-!
Verification of the Shadow Economy Mapper evidence pipeline.

The frontend utilities (validation, formatting, error handling, export) are
shallowly embedded from the TypeScript sources under apps/web.  JavaScript
numbers are modelled by the type JsNum: an exact rational for the finite case
plus the special values NaN and the two infinities; monetary values handled by
the claims are exactly representable with two decimals, so the rational model
is lossless on the inputs considered.  The evidence-fusion engine
(linker, anomaly detector, scorer, insight generator) is not part of the
frontend sources; it is modelled from the specification, with real-valued
arithmetic where the specification speaks of means, standard deviations and
z-scores.
-/

namespace SEM

/-! ## JavaScript number model -/

/-- Model of a JavaScript number: an exact rational, NaN, or an infinity. -/
inductive JsNum where
  | finite (q : ℚ)
  | nan
  | posInf
  | negInf
deriving DecidableEq, Repr

/-- Division following IEEE-754 / JavaScript semantics: 0/0 is NaN and
x/0 for x ≠ 0 is a signed infinity. -/
def jsDiv : JsNum → JsNum → JsNum
  | .finite a, .finite b =>
      if b = 0 then
        (if a = 0 then .nan else if 0 < a then .posInf else .negInf)
      else .finite (a / b)
  | .nan, _ => .nan
  | _, .nan => .nan
  | .posInf, .posInf => .nan
  | .posInf, .negInf => .nan
  | .negInf, .posInf => .nan
  | .negInf, .negInf => .nan
  | .posInf, .finite b => if b < 0 then .negInf else .posInf
  | .negInf, .finite b => if b < 0 then .posInf else .negInf
  | .finite _, .posInf => .finite 0
  | .finite _, .negInf => .finite 0

/-- Multiplication following JavaScript semantics on the cases the claims
exercise; NaN propagates, and infinity times zero is NaN. -/
def jsMul : JsNum → JsNum → JsNum
  | .finite a, .finite b => .finite (a * b)
  | .nan, _ => .nan
  | _, .nan => .nan
  | .posInf, .finite b =>
      if b = 0 then .nan else if 0 < b then .posInf else .negInf
  | .finite a, .posInf =>
      if a = 0 then .nan else if 0 < a then .posInf else .negInf
  | .negInf, .finite b =>
      if b = 0 then .nan else if 0 < b then .negInf else .posInf
  | .finite a, .negInf =>
      if a = 0 then .nan else if 0 < a then .negInf else .posInf
  | .posInf, .posInf => .posInf
  | .negInf, .negInf => .posInf
  | .posInf, .negInf => .negInf
  | .negInf, .posInf => .negInf

/-- Math.round: rounds a finite value to the nearest integer (half towards
positive infinity, as JavaScript does); NaN and infinities pass through. -/
def jsRound : JsNum → JsNum
  | .finite q => .finite ((round q : ℤ) : ℚ)
  | .nan => .nan
  | .posInf => .posInf
  | .negInf => .negInf

/-! ## Decimal digit rendering (shared by number-to-string conversions) -/

/-- The character for one decimal digit value. -/
def dchar (d : ℕ) : Char := Char.ofNat (48 + d)

/-- Numeric value of a decimal digit character. -/
def dval (c : Char) : ℕ := c.toNat - 48

/-- Decimal digits of a natural number, most significant first, as characters;
zero renders as the single digit 0 (as JavaScript number-to-string does). -/
def renderNat (n : ℕ) : List Char :=
  if n = 0 then ['0'] else ((Nat.digits 10 n).reverse).map dchar

/-- String form of an integer, matching JavaScript template interpolation. -/
def renderInt (i : ℤ) : List Char :=
  if i < 0 then '-' :: renderNat i.natAbs else renderNat i.natAbs

/-- Template interpolation of a JsNum, as in a JavaScript template literal:
NaN prints as NaN, infinities as Infinity / -Infinity, and the finite values
reached by the claims are integers. -/
def jsNumText : JsNum → List Char
  | .nan => "NaN".data
  | .posInf => "Infinity".data
  | .negInf => "-Infinity".data
  | .finite q => if q.den = 1 then renderInt q.num else renderInt q.num ++ '?' :: []

/-! ## Validation utilities (validateCurrency) -/

/-- Result type of the validation utilities: a flag plus an optional
error message. -/
structure ValidationResult where
  valid : Bool
  error : Option String
deriving DecidableEq, Repr

/-- Embedding of validateCurrency on its numeric branch: a non-finite amount
is rejected, an amount that is not strictly positive is rejected, and an
amount above one million is rejected; everything else is accepted. -/
def validateCurrency : JsNum → ValidationResult
  | .nan => ⟨false, some "Please enter a valid amount"⟩
  | .posInf => ⟨false, some "Please enter a valid amount"⟩
  | .negInf => ⟨false, some "Please enter a valid amount"⟩
  | .finite amount =>
      if amount ≤ 0 then ⟨false, some "Amount must be greater than RM 0.00"⟩
      else if 1000000 < amount then ⟨false, some "Amount cannot exceed RM 1,000,000.00"⟩
      else ⟨true, none⟩

/-! ## Error handling utilities (errorHandling.ts) -/

/-- Checks whether the character list sub occurs contiguously inside s. -/
def hasSubstr (sub : List Char) : List Char → Bool
  | [] => sub.isEmpty
  | c :: cs => sub.isPrefixOf (c :: cs) || hasSubstr sub cs

/-- ASCII lower-casing of one character, as String.prototype.toLowerCase
behaves on the ASCII messages involved. -/
def charLower (c : Char) : Char :=
  if 'A' ≤ c ∧ c ≤ 'Z' then Char.ofNat (c.toNat + 32) else c

/-- Model of a JavaScript error value as the error-handling utilities
inspect it: whether it is an Error instance, an optional numeric status
property, and a message string. -/
structure JsError where
  isErrorInstance : Bool
  status : Option ℤ
  message : List Char
deriving DecidableEq, Repr

/-- Embedding of isAuthError: an object carrying a status of 401 or 403. -/
def isAuthError (e : JsError) : Bool :=
  match e.status with
  | some s => s == 401 || s == 403
  | none => false

/-- Embedding of isNetworkError: an Error instance whose lower-cased message
contains network, connection or timeout. -/
def isNetworkError (e : JsError) : Bool :=
  e.isErrorInstance &&
    (hasSubstr "network".data (e.message.map charLower) ||
     hasSubstr "connection".data (e.message.map charLower) ||
     hasSubstr "timeout".data (e.message.map charLower))

/-- Embedding of getRetryDelay: no retry for auth errors, exponential backoff
capped at 10000 ms for network errors, no retry otherwise. -/
def getRetryDelay (e : JsError) (attemptNumber : ℕ) : Option ℕ :=
  if isAuthError e then none
  else if isNetworkError e then some (min (1000 * 2 ^ attemptNumber) 10000)
  else none

/-! ## Currency formatting (formatters.ts) -/

/-- One grouping pass of the thousands-separator regex, working on the
reversed digit list: a comma is inserted after every third digit counted
from the right. -/
def group3Aux : List Char → List Char
  | a :: b :: c :: d :: rest => a :: b :: c :: ',' :: group3Aux (d :: rest)
  | l => l
termination_by l => l.length

/-- Thousands grouping of an integer digit string, the effect of the
replace(/\B(?=(\d\x7b3\x7d)+(?!\d))/g) call on the integer part. -/
def group3 (l : List Char) : List Char := (group3Aux l.reverse).reverse

/-- Embedding of formatCurrency: NaN and infinities map to RM 0.00;
a finite amount is formatted from its absolute value in cents (toFixed(2),
exact on amounts with at most two decimals) with thousands grouping and a
leading minus sign for negative amounts. -/
def formatCurrencyChars : JsNum → List Char
  | .nan => "RM 0.00".data
  | .posInf => "RM 0.00".data
  | .negInf => "RM 0.00".data
  | .finite q =>
      let n := (round (|q| * 100) : ℤ).toNat
      (if q < 0 then ['-'] else []) ++ "RM ".data ++
        (group3 (renderNat (n / 100)) ++
          '.' :: [dchar (n % 100 / 10), dchar (n % 100 % 10)])

/-- Characters removed by the cleaning regex /[RM\s,]/g of parseCurrency. -/
def stripChar (c : Char) : Bool :=
  c == 'R' || c == 'M' || c == ',' || c == ' ' || c == '\t' || c == '\n' || c == '\r'

/-- The cleaning step of parseCurrency. -/
def cleanChars (l : List Char) : List Char := l.filter (fun c => !stripChar c)

/-- Longest prefix of decimal digits together with the remainder. -/
def takeDigits : List Char → List Char × List Char
  | [] => ([], [])
  | c :: cs =>
      if c.isDigit then ((takeDigits cs).1.cons c, (takeDigits cs).2)
      else ([], c :: cs)

/-- Value of a digit string, most significant digit first. -/
def digitsVal (l : List Char) : ℕ := l.foldl (fun a c => 10 * a + dval c) 0

/-- Model of parseFloat on the decimal fragment the application feeds it:
an optional sign, an integer digit run, and an optional fractional digit run;
none models NaN (no digits at all).  Exponent notation and the literal
Infinity are outside this fragment. -/
def parseFloatQ (l : List Char) : Option ℚ :=
  let sr : ℚ × List Char :=
    match l with
    | c :: t => if c = '-' then (-1, t) else if c = '+' then (1, t) else (1, c :: t)
    | [] => (1, [])
  let ds := takeDigits sr.2
  let fs : List Char :=
    match ds.2 with
    | c :: t => if c = '.' then (takeDigits t).1 else []
    | [] => []
  if ds.1.isEmpty ∧ fs.isEmpty then none
  else some (sr.1 * ((digitsVal ds.1 : ℚ) + (digitsVal fs : ℚ) / (10 : ℚ) ^ fs.length))

/-- Embedding of parseCurrency: clean the currency decorations, parse as a
float, and map an unparseable string to 0. -/
def parseCurrency (l : List Char) : ℚ :=
  match parseFloatQ (cleanChars l) with
  | none => 0
  | some v => v

/-! ## Verifier report summary statistics (VerifierReportView) -/

/-- Evidence record as the verifier report inspects it: only the processing
status is relevant to the summary statistics. -/
structure EvidenceItem where
  status : String
deriving DecidableEq, Repr

/-- Count of evidence items whose status is ANALYZED, the value of
evidenceByStatus.ANALYZED || 0. -/
def processedCount (ev : List EvidenceItem) : ℕ :=
  (ev.filter (fun e => e.status == "ANALYZED")).length

/-- The completion-rate computation of the verifier report:
Math.round((processedEvidence / totalEvidence) * 100) under JavaScript
number semantics. -/
def completionRate (ev : List EvidenceItem) : JsNum :=
  jsRound (jsMul (jsDiv (.finite (processedCount ev : ℚ)) (.finite (ev.length : ℚ)))
    (.finite 100))

/-- The rendered completion-rate line of the verifier report. -/
def completionRateText (ev : List EvidenceItem) : List Char :=
  jsNumText (completionRate ev) ++ "% completion rate".data

/-! ## Shared data model (types/index.ts) -/

/-- JSON value tree, the image of JSON.stringify / JSON.parse.  Numbers are
modelled as exact rationals: on finite double values JSON serialization
round-trips exactly, which the rational model reflects. -/
inductive Json where
  | num (q : ℚ)
  | str (s : String)
  | jbool (b : Bool)
  | null
  | arr (elems : List Json)
  | obj (fields : List (String × Json))

/-- Confidence level enumeration from the shared types. -/
inductive ConfidenceLevel where
  | LOW
  | MEDIUM
  | HIGH
deriving DecidableEq, Repr

/-- ScoreBreakdown record from the shared types: the six real-valued
components. -/
structure ScoreBreakdown where
  activity : ℚ
  consistency : ℚ
  longevity : ℚ
  evidence_strength : ℚ
  cross_source : ℚ
  penalties : ℚ
deriving DecidableEq, Repr

/-- Insight card type tag from the shared types. -/
inductive InsightType where
  | peak_day
  | trend
  | recommendation
  | coverage
deriving DecidableEq, Repr

/-- InsightCard from the shared types; the optional structured payload is an
open JSON object. -/
structure InsightCard where
  type : InsightType
  title : String
  description : String
  data : Option Json

/-- CredibilityScore exactly as declared in the shared types: the output
contract fields plus the persistence fields id and business. -/
structure CredibilityScore where
  id : String
  business : String
  score : ℤ
  confidence_level : ConfidenceLevel
  breakdown : ScoreBreakdown
  flags : List String
  insights : List InsightCard
  computed_at : String

/-! ## Date validation (validateDate), with a civil-calendar model of the
JavaScript Date normalization it relies on -/

/-- A civil calendar date; month is 1-based in normalized dates. -/
structure CivilDate where
  y : ℤ
  m : ℤ
  d : ℤ
deriving DecidableEq, Repr

/-- Proleptic Gregorian leap year. -/
def isLeap (y : ℤ) : Prop := y % 4 = 0 ∧ (y % 100 ≠ 0 ∨ y % 400 = 0)

instance isLeap_dec : DecidablePred isLeap := fun y =>
  decidable_of_iff (y % 4 = 0 ∧ (y % 100 ≠ 0 ∨ y % 400 = 0)) Iff.rfl

/-- Number of days of month m (1-based) of year y. -/
def daysInMonth (y m : ℤ) : ℤ :=
  if m = 1 then 31
  else if m = 2 then (if isLeap y then 29 else 28)
  else if m = 3 then 31
  else if m = 4 then 30
  else if m = 5 then 31
  else if m = 6 then 30
  else if m = 7 then 31
  else if m = 8 then 31
  else if m = 9 then 30
  else if m = 10 then 31
  else if m = 11 then 30
  else 31

/-- Days of year y strictly before month m (1-based). -/
def monthOffset (y m : ℤ) : ℤ :=
  (if m = 1 then 0
   else if m = 2 then 31
   else if m = 3 then 59
   else if m = 4 then 90
   else if m = 5 then 120
   else if m = 6 then 151
   else if m = 7 then 181
   else if m = 8 then 212
   else if m = 9 then 243
   else if m = 10 then 273
   else if m = 11 then 304
   else 334) +
  (if 3 ≤ m ∧ isLeap y then 1 else 0)

/-- Days from the epoch of year 0 to the start of year y (proleptic
Gregorian; Int division is Euclidean, which is floor for the positive
divisors used). -/
def daysBeforeYear (y : ℤ) : ℤ :=
  365 * y + (y + 3) / 4 - (y + 99) / 100 + (y + 399) / 400

/-- Linear day number of a civil date; equal dates have equal numbers and
later dates have larger numbers, mirroring the time-value comparison of two
JavaScript Dates constructed at midnight. -/
def dayNumber (dt : CivilDate) : ℤ :=
  daysBeforeYear dt.y + monthOffset dt.y dt.m + dt.d - 1

/-- The two-digit-year rule of the Date(year, month, day) constructor:
years 0 to 99 denote 1900 to 1999. -/
def yAdj (year : ℤ) : ℤ := if 0 ≤ year ∧ year ≤ 99 then 1900 + year else year

/-- Day-overflow normalization of the Date constructor: while the day
exceeds the month length, subtract the month and advance; the fuel bounds
recursion and is never exhausted for day values up to 99. -/
def rollDays : ℕ → ℤ → ℤ → ℤ → CivilDate
  | 0, y, m, d => ⟨y, m, d⟩
  | fuel + 1, y, m, d =>
      if daysInMonth y m < d then
        (if m = 12 then rollDays fuel (y + 1) 1 (d - daysInMonth y m)
         else rollDays fuel y (m + 1) (d - daysInMonth y m))
      else ⟨y, m, d⟩

/-- The normalized civil date denoted by new Date(year, month0, day) at
midnight, for the argument ranges the validator produces (month0 from -1,
day from 0): the two-digit-year rule, then month normalization, then day
normalization (day 0 is the last day of the preceding month). -/
def jsMakeDate (year month0 day : ℤ) : CivilDate :=
  let t := yAdj year * 12 + month0
  let yy := t / 12
  let mm := t % 12 + 1
  if day ≤ 0 then
    (if mm = 1 then ⟨yy - 1, 12, 31 + day⟩
     else ⟨yy, mm - 1, daysInMonth yy (mm - 1) + day⟩)
  else rollDays 8 yy mm day

/-- The date ten years before now as setFullYear(now - 10) computes it:
the calendar fields are kept, except that February 29 normalizes to
March 1 when the target year is not a leap year. -/
def tenYearsAgo (now : CivilDate) : CivilDate :=
  if now.m = 2 ∧ now.d = 29 ∧ ¬ isLeap (now.y - 10) then ⟨now.y - 10, 3, 1⟩
  else ⟨now.y - 10, now.m, now.d⟩

/-- The DD/MM/YYYY shape test of validateDate's regular expression. -/
def matchesDDMMYYYY (s : List Char) : Bool :=
  s.length == 10 &&
  (s.getD 0 ' ').isDigit && (s.getD 1 ' ').isDigit && (s.getD 2 ' ') == '/' &&
  (s.getD 3 ' ').isDigit && (s.getD 4 ' ').isDigit && (s.getD 5 ' ') == '/' &&
  (s.getD 6 ' ').isDigit && (s.getD 7 ' ').isDigit &&
  (s.getD 8 ' ').isDigit && (s.getD 9 ' ').isDigit

/-- The day, month (1-based) and year parsed from a format-matching string,
as the split('/') and parseInt calls produce them. -/
def dateFields (s : List Char) : ℤ × ℤ × ℤ :=
  ((10 * dval (s.getD 0 ' ') + dval (s.getD 1 ' ') : ℕ),
   (10 * dval (s.getD 3 ' ') + dval (s.getD 4 ' ') : ℕ),
   (1000 * dval (s.getD 6 ' ') + 100 * dval (s.getD 7 ' ') +
    10 * dval (s.getD 8 ' ') + dval (s.getD 9 ' ') : ℕ))

/-- Embedding of validateDate: format test, Date construction with the
rollover check on the three getters, then the not-in-the-future and
not-over-ten-years-ago checks against the current day. -/
def validateDate (s : List Char) (now : CivilDate) : ValidationResult :=
  if matchesDDMMYYYY s then
    let f := dateFields s
    let day := f.1
    let month0 := f.2.1 - 1
    let year := f.2.2
    let date := jsMakeDate year month0 day
    if date.d ≠ day ∨ date.m - 1 ≠ month0 ∨ date.y ≠ year then
      ⟨false, some "Please enter a valid date"⟩
    else if dayNumber now < dayNumber date then
      ⟨false, some "Date cannot be in the future"⟩
    else if dayNumber date < dayNumber (tenYearsAgo now) then
      ⟨false, some "Date cannot be more than 10 years ago"⟩
    else ⟨true, none⟩
  else ⟨false, some "Please enter date in DD/MM/YYYY format"⟩

/-- A real calendar date, the specification-side reading of the rollover
check. -/
def realDate (day month year : ℤ) : Prop :=
  1 ≤ month ∧ month ≤ 12 ∧ 1 ≤ day ∧ day ≤ daysInMonth year month

/-- A normalized civil date: month and day within range. -/
def normalizedDate (dt : CivilDate) : Prop :=
  1 ≤ dt.m ∧ dt.m ≤ 12 ∧ 1 ≤ dt.d ∧ dt.d ≤ daysInMonth dt.y dt.m

instance realDate_dec (d m y : ℤ) : Decidable (realDate d m y) :=
  decidable_of_iff (1 ≤ m ∧ m ≤ 12 ∧ 1 ≤ d ∧ d ≤ daysInMonth y m) Iff.rfl

instance normalizedDate_dec (dt : CivilDate) : Decidable (normalizedDate dt) :=
  decidable_of_iff (1 ≤ dt.m ∧ dt.m ≤ 12 ∧ 1 ≤ dt.d ∧ dt.d ≤ daysInMonth dt.y dt.m)
    Iff.rfl

/-! ## JSON serialization of a CredibilityScore (exportAsJSON) -/

/-- Reading a field of a JSON object, as property access after JSON.parse. -/
def jGet (j : Json) (k : String) : Option Json :=
  match j with
  | .obj fs => fs.lookup k
  | _ => none

/-- Reading a string-valued field. -/
def jGetStr (j : Json) (k : String) : Option String :=
  match jGet j k with
  | some (.str s) => some s
  | _ => none

/-- Reading a number-valued field. -/
def jGetNum (j : Json) (k : String) : Option ℚ :=
  match jGet j k with
  | some (.num q) => some q
  | _ => none

/-- Serialization of a confidence level, as JSON.stringify renders the
string union. -/
def encodeLevel : ConfidenceLevel → Json
  | .LOW => .str "LOW"
  | .MEDIUM => .str "MEDIUM"
  | .HIGH => .str "HIGH"

/-- Parsing a confidence level back from its JSON form. -/
def decodeLevel : Json → Option ConfidenceLevel
  | .str "LOW" => some .LOW
  | .str "MEDIUM" => some .MEDIUM
  | .str "HIGH" => some .HIGH
  | _ => none

/-- Serialization of the six-component breakdown. -/
def encodeBreakdown (b : ScoreBreakdown) : Json :=
  .obj [("activity", .num b.activity), ("consistency", .num b.consistency),
        ("longevity", .num b.longevity),
        ("evidence_strength", .num b.evidence_strength),
        ("cross_source", .num b.cross_source), ("penalties", .num b.penalties)]

/-- Parsing the breakdown back from its JSON form. -/
def decodeBreakdown (j : Json) : Option ScoreBreakdown := do
  let a ← jGetNum j "activity"
  let c ← jGetNum j "consistency"
  let l ← jGetNum j "longevity"
  let e ← jGetNum j "evidence_strength"
  let x ← jGetNum j "cross_source"
  let p ← jGetNum j "penalties"
  pure ⟨a, c, l, e, x, p⟩

/-- Serialization of an insight type tag. -/
def encodeType : InsightType → Json
  | .peak_day => .str "peak_day"
  | .trend => .str "trend"
  | .recommendation => .str "recommendation"
  | .coverage => .str "coverage"

/-- Parsing an insight type tag back from its JSON form. -/
def decodeType : Json → Option InsightType
  | .str "peak_day" => some .peak_day
  | .str "trend" => some .trend
  | .str "recommendation" => some .recommendation
  | .str "coverage" => some .coverage
  | _ => none

/-- Serialization of an insight card; JSON.stringify omits the data key when
the optional payload is undefined. -/
def encodeCard (c : InsightCard) : Json :=
  .obj ([("type", encodeType c.type), ("title", .str c.title),
         ("description", .str c.description)] ++
        (match c.data with
         | none => []
         | some d => [("data", d)]))

/-- Parsing an insight card back from its JSON form; a missing data key
yields an absent payload. -/
def decodeCard (j : Json) : Option InsightCard := do
  let tj ← jGet j "type"
  let t ← decodeType tj
  let ti ← jGetStr j "title"
  let de ← jGetStr j "description"
  pure ⟨t, ti, de, jGet j "data"⟩

/-- Parsing one element of the flags array. -/
def decodeFlag : Json → Option String
  | .str s => some s
  | _ => none

/-- Parsing every element of a JSON array, failing if any element fails. -/
def decodeAll (f : Json → Option α) : List Json → Option (List α)
  | [] => some []
  | j :: js => do
      let a ← f j
      let as ← decodeAll f js
      pure (a :: as)

/-- Serialization of a CredibilityScore to the output schema, as
JSON.stringify renders the record inside exportAsJSON. -/
def encodeScore (s : CredibilityScore) : Json :=
  .obj [("id", .str s.id), ("business", .str s.business),
        ("score", .num (s.score : ℚ)),
        ("confidence_level", encodeLevel s.confidence_level),
        ("breakdown", encodeBreakdown s.breakdown),
        ("flags", .arr (s.flags.map .str)),
        ("insights", .arr (s.insights.map encodeCard)),
        ("computed_at", .str s.computed_at)]

/-- Re-parsing a CredibilityScore from its JSON form; the score must be an
integer as the output contract documents. -/
def decodeScore (j : Json) : Option CredibilityScore := do
  let i ← jGetStr j "id"
  let b ← jGetStr j "business"
  let scq ← jGetNum j "score"
  let sc ← if scq.den = 1 then some scq.num else none
  let lvlj ← jGet j "confidence_level"
  let lvl ← decodeLevel lvlj
  let brkj ← jGet j "breakdown"
  let brk ← decodeBreakdown brkj
  let flags ← match jGet j "flags" with
    | some (.arr es) => decodeAll decodeFlag es
    | _ => none
  let ins ← match jGet j "insights" with
    | some (.arr es) => decodeAll decodeCard es
    | _ => none
  let at0 ← jGetStr j "computed_at"
  pure ⟨i, b, sc, lvl, brk, flags, ins, at0⟩

/-! ## Evidence Fusion Engine

The engine itself (event linker, anomaly detector, credibility scorer,
insight generator) lives in the scoring package, which is not among the
frontend sources; every definition below is modelled from the
specification.  Entry fields that the specification calls real numbers are
exact rationals here; the statistics the specification defines through
standard deviations (consistency, spike z-scores) are computed over the
reals.  The pipeline first drops entries violating the numeric sanity rules
and then canonicalizes the snapshot by sorting on the entry identifier,
which realises the specified order-independence with ties broken by entry
id. -/

/-- Modelled from the spec: a normalized LedgerEntry as the engine consumes
it — identifier, originating evidence source, UTC timestamp in seconds,
amount, extraction confidence, channel, and the normalized keyword tokens of
the open attribute bag. -/
structure SEntry where
  id : ℕ
  source : ℕ
  time : ℤ
  amount : ℚ
  confidence : ℚ
  channel : ℕ
  tokens : List String
deriving DecidableEq, Repr

/-- Modelled from the spec: the numeric sanity rule — non-negative amount
and confidence in the unit interval; violating entries are skipped. -/
def validEntry (e : SEntry) : Bool :=
  decide (0 ≤ e.amount) && decide (0 ≤ e.confidence) && decide (e.confidence ≤ 1)

/-- Modelled from the spec: malformed entries are excluded from
computation. -/
def sanitize (l : List SEntry) : List SEntry := l.filter validEntry

/-- Insertion into a list sorted by ascending entry id. -/
def insertById (x : SEntry) : List SEntry → List SEntry
  | [] => [x]
  | y :: ys => if x.id ≤ y.id then x :: y :: ys else y :: insertById x ys

/-- Insertion sort by ascending entry id, the specified deterministic tie
break. -/
def sortById (l : List SEntry) : List SEntry := l.foldr insertById []

/-- Modelled from the spec: the canonical snapshot the four components
consume — sanitized and ordered by entry id. -/
def canonicalEntries (l : List SEntry) : List SEntry := sortById (sanitize l)

/-- Link type enumeration of the EventLink record. -/
inductive LinkType where
  | amount_match
  | time_match
  | keyword_match
  | cross_channel
deriving DecidableEq, Repr

/-- Modelled from the spec: an EventLink — the canonicalized (lower id
first) entry pair, the strongest applicable link type, and the similarity
score. -/
structure EventLink where
  entryA : ℕ
  entryB : ℕ
  linkType : LinkType
  similarity : ℚ
deriving DecidableEq, Repr

/-- Modelled from the spec: amount tolerance — absolute 1.00 for tiny
amounts, 2 percent relative otherwise. -/
def amountTol (x y : SEntry) : ℚ := max 1 ((2 / 100) * max x.amount y.amount)

/-- Modelled from the spec: the looser 5 percent tolerance of the
cross_channel floor. -/
def looseTol (x y : SEntry) : ℚ := max 1 ((5 / 100) * max x.amount y.amount)

/-- Modelled from the spec: amount_match candidacy. -/
def amountOk (x y : SEntry) : Prop := |x.amount - y.amount| ≤ amountTol x y

instance amountOk_dec (x y : SEntry) : Decidable (amountOk x y) :=
  decidable_of_iff (|x.amount - y.amount| ≤ amountTol x y) Iff.rfl

/-- Modelled from the spec: time_match candidacy — timestamps within the
24-hour window. -/
def timeOk (x y : SEntry) : Prop := |x.time - y.time| ≤ 24 * 3600

instance timeOk_dec (x y : SEntry) : Decidable (timeOk x y) :=
  decidable_of_iff (|x.time - y.time| ≤ 24 * 3600) Iff.rfl

/-- Modelled from the spec: keyword_match candidacy — a shared normalized
token of length at least 3. -/
def sharedKeyword (x y : SEntry) : Prop :=
  ∃ t ∈ x.tokens, 3 ≤ t.length ∧ t ∈ y.tokens

instance sharedKeyword_dec (x y : SEntry) : Decidable (sharedKeyword x y) := by
  unfold sharedKeyword
  infer_instance

/-- Modelled from the spec: cross_channel floor candidacy — amount and time
both within the looser tolerances (48 hours, 5 percent). -/
def crossOk (x y : SEntry) : Prop :=
  |x.amount - y.amount| ≤ looseTol x y ∧ |x.time - y.time| ≤ 48 * 3600

instance crossOk_dec (x y : SEntry) : Decidable (crossOk x y) :=
  decidable_of_iff (|x.amount - y.amount| ≤ looseTol x y ∧ |x.time - y.time| ≤ 48 * 3600)
    Iff.rfl

/-- Modelled from the spec: the strongest applicable link type, in priority
order amount_match, time_match, keyword_match, cross_channel. -/
def linkTypeFor (x y : SEntry) : Option LinkType :=
  if amountOk x y then some .amount_match
  else if timeOk x y then some .time_match
  else if sharedKeyword x y then some .keyword_match
  else if crossOk x y then some .cross_channel
  else none

/-- Modelled from the spec: amount closeness normalized to the unit
interval, 1 at exact match and 0 at the tolerance boundary. -/
def amountCloseness (x y : SEntry) : ℚ :=
  max 0 (1 - |x.amount - y.amount| / amountTol x y)

/-- Modelled from the spec: time closeness normalized to the unit
interval over the 24-hour window. -/
def timeCloseness (x y : SEntry) : ℚ :=
  max 0 (1 - ((|x.time - y.time| : ℤ) : ℚ) / (24 * 3600))

/-- The deduplicated keyword tokens of length at least 3. -/
def keywordTokens (e : SEntry) : List String :=
  (e.tokens.filter (fun t => decide (3 ≤ t.length))).dedup

/-- Modelled from the spec: keyword overlap as the Jaccard ratio of the
keyword token sets, 0 when both are empty. -/
def keywordOverlap (x y : SEntry) : ℚ :=
  let inter := ((keywordTokens x).filter (fun t => (keywordTokens y).contains t)).length
  let union := ((keywordTokens x) ++
    (keywordTokens y).filter (fun t => !(keywordTokens x).contains t)).length
  if union = 0 then 0 else (inter : ℚ) / union

/-- Modelled from the spec: the weighted similarity combination
0.5 amount + 0.3 time + 0.2 keyword. -/
def similarity (x y : SEntry) : ℚ :=
  (1 / 2) * amountCloseness x y + (3 / 10) * timeCloseness x y +
    (1 / 5) * keywordOverlap x y

/-- Modelled from the spec: the candidate link for one cross-source pair —
none for same-source pairs, none when no criterion applies or the
similarity is below 0.5, otherwise the canonicalized link. -/
def mkLink (x y : SEntry) : Option EventLink :=
  if x.source = y.source then none
  else
    match linkTypeFor x y with
    | none => none
    | some t =>
        if 1 / 2 ≤ similarity x y then
          some ⟨min x.id y.id, max x.id y.id, t, similarity x y⟩
        else none

/-- All ordered pairs of a list, each earlier element paired with each later
one. -/
def pairsOf : List α → List (α × α)
  | [] => []
  | x :: xs => xs.map (fun y => (x, y)) ++ pairsOf xs

/-- Modelled from the spec: the Event Linker — candidate links over every
unordered pair of the canonical snapshot, deduplicated by construction
through the canonical pair ordering. -/
def link (l : List SEntry) : List EventLink :=
  (pairsOf (canonicalEntries l)).filterMap (fun p => mkLink p.1 p.2)

/-- Calendar-day bucket of an entry. -/
def dayKey (e : SEntry) : ℤ := e.time / 86400

/-- Calendar-week bucket of an entry. -/
def weekKey (e : SEntry) : ℤ := e.time / (7 * 86400)

/-- The distinct day buckets of a snapshot. -/
def daysOf (l : List SEntry) : List ℤ := (l.map dayKey).dedup

/-- Total amount of one day bucket. -/
def dayTotal (l : List SEntry) (k : ℤ) : ℚ :=
  ((l.filter (fun e => dayKey e == k)).map SEntry.amount).sum

/-- Mean of a list of reals (0 for the empty list). -/
noncomputable def listMeanR (xs : List ℝ) : ℝ := xs.sum / xs.length

/-- Population variance of a list of reals. -/
noncomputable def listVarR (xs : List ℝ) : ℝ :=
  ((xs.map (fun x => (x - listMeanR xs) ^ 2)).sum) / xs.length

/-- Standard deviation of a list of reals. -/
noncomputable def listStdR (xs : List ℝ) : ℝ := Real.sqrt (listVarR xs)

open Classical in
/-- Modelled from the spec: the amount by which a day's z-score against the
trailing 28-day window exceeds 3.0; zero when fewer than 7 days of history
exist or the deviation is zero (the specified neutral special case). -/
noncomputable def zExcess (l : List SEntry) (k : ℤ) : ℝ :=
  let hist := ((daysOf l).filter (fun d => decide (k - 28 ≤ d) && decide (d < k))).map
    (fun d => ((dayTotal l d : ℚ) : ℝ))
  if hist.length < 7 then 0
  else if listStdR hist = 0 then 0
  else (((dayTotal l k : ℚ) : ℝ) - listMeanR hist) / listStdR hist - 3

/-- The largest z-score excess over all days (0 when no day spikes). -/
noncomputable def spikeExcess (l : List SEntry) : ℝ :=
  ((daysOf l).map (zExcess l)).foldr max 0

/-- An amount that is an exact multiple of 50. -/
def isMultipleOf50 (q : ℚ) : Bool := decide ((q / 50).den = 1)

/-- Count of round-number entries. -/
def roundCount (l : List SEntry) : ℕ :=
  (l.filter (fun e => isMultipleOf50 e.amount)).length

/-- Modelled from the spec: duplicate-upload pairs — same source, identical
amount, timestamps within 60 seconds. -/
def dupCount (l : List SEntry) : ℕ :=
  ((pairsOf l).filter (fun p =>
    p.1.source == p.2.source && p.1.amount == p.2.amount &&
      decide (|p.1.time - p.2.time| ≤ 60))).length

/-- The distinct week buckets of a snapshot. -/
def weeksOf (l : List SEntry) : List ℤ := (l.map weekKey).dedup

/-- Modelled from the spec: gap detection — some calendar week strictly
inside the ledger's week span has no entries. -/
def hasGapWeek (l : List SEntry) : Bool :=
  match weeksOf l with
  | [] => false
  | w :: ws =>
      let lo := ws.foldr min w
      let hi := ws.foldr max w
      ((List.range (hi - lo).toNat).map (fun i => lo + (i : ℤ) + 1)).any
        (fun wk => decide (wk < hi) && !((w :: ws).contains wk))

open Classical in
/-- Modelled from the spec: the Anomaly Detector — each check independent,
producing named flags with non-negative severities: spike severity
proportional to the capped z-score excess, a fixed low severity for the
round-number pattern, duplicate severity scaling with the duplicate count
(capped), and a near-zero severity for a missing period. -/
noncomputable def detect (l : List SEntry) : List (String × ℝ) :=
  (if 0 < spikeExcess l then [("spike_detected", min 5 (spikeExcess l))] else []) ++
  (if 5 * roundCount l > 2 * l.length then [("round_number_pattern", (2 : ℝ))] else []) ++
  (if 0 < dupCount l then [("duplicate_upload", min 5 (dupCount l : ℝ))] else []) ++
  (if hasGapWeek l then [("missing_period", (1 / 2 : ℝ))] else [])

/-- Modelled from the spec: total penalty — the negated severity sum,
clamped to the invariant floor of -20. -/
noncomputable def penaltyTotal (l : List SEntry) : ℝ :=
  max (-20) (-(((detect l).map Prod.snd).sum))

/-- Number of distinct active weeks. -/
def activeWeeks (l : List SEntry) : ℕ := (weeksOf l).length

/-- Modelled from the spec: activity component,
min(30, active_weeks · 1.5 + avg_weekly_transactions · 2). -/
noncomputable def activityScore (l : List SEntry) : ℝ :=
  if l.length = 0 then 0
  else min 30 ((activeWeeks l : ℝ) * 1.5 +
    ((l.length : ℝ) / (activeWeeks l : ℝ)) * 2)

/-- Weekly revenue totals over the distinct active weeks. -/
def weeklyTotals (l : List SEntry) : List ℚ :=
  (weeksOf l).map (fun w => ((l.filter (fun e => weekKey e == w)).map SEntry.amount).sum)

open Classical in
/-- Modelled from the spec: consistency component,
20 · (1 − cv) with the coefficient of variation clamped to the unit
interval; zero weeks of data or zero mean map to the neutral 0. -/
noncomputable def consistencyScore (l : List SEntry) : ℝ :=
  let ws : List ℝ := (weeklyTotals l).map (fun q => (q : ℝ))
  if ws.length = 0 then 0
  else if listMeanR ws = 0 then 0
  else 20 * (1 - min 1 (max 0 (listStdR ws / listMeanR ws)))

/-- Earliest entry timestamp (0 for the empty snapshot). -/
def minTime (l : List SEntry) : ℤ :=
  match l with
  | [] => 0
  | e :: es => (es.map SEntry.time).foldr min e.time

/-- Latest entry timestamp (0 for the empty snapshot). -/
def maxTime (l : List SEntry) : ℤ :=
  match l with
  | [] => 0
  | e :: es => (es.map SEntry.time).foldr max e.time

/-- Modelled from the spec: longevity component, min(20, span_days / 9). -/
noncomputable def longevityScore (l : List SEntry) : ℝ :=
  if l.isEmpty then 0
  else min 20 ((((maxTime l - minTime l : ℤ) : ℝ) / 86400) / 9)

/-- Modelled from the spec: evidence-strength component, the
confidence-weighted average scaled to 25. -/
noncomputable def evidenceScore (l : List SEntry) : ℝ :=
  if l.length = 0 then 0
  else 25 * ((((l.map SEntry.confidence).sum : ℚ) : ℝ) / (l.length : ℝ))

/-- The distinct linked source pairs, canonicalized. -/
def sourcePairsLinked (l : List SEntry) : List (ℕ × ℕ) :=
  ((pairsOf l).filterMap (fun p => (mkLink p.1 p.2).map
    (fun _ => (min p.1.source p.2.source, max p.1.source p.2.source)))).dedup

/-- Modelled from the spec: cross-source component,
min(15, distinct_source_pairs_linked · 3). -/
noncomputable def crossSourceScore (l : List SEntry) : ℝ :=
  min 15 (3 * ((sourcePairsLinked l).length : ℝ))

/-- Modelled from the spec: the six-component breakdown over the reals. -/
structure SBreakdown where
  activity : ℝ
  consistency : ℝ
  longevity : ℝ
  evidence_strength : ℝ
  cross_source : ℝ
  penalties : ℝ

/-- Modelled from the spec: an insight card of the generator. -/
structure InsightCardS where
  type : InsightType
  title : String
  description : String
deriving DecidableEq, Repr

/-- Distinct channels present. -/
def channelsOf (l : List SEntry) : List ℕ := (l.map SEntry.channel).dedup

/-- Total amount of one day-of-week bucket. -/
def dayTotalDow (l : List SEntry) (i : ℤ) : ℚ :=
  ((l.filter (fun e => dayKey e % 7 == i)).map SEntry.amount).sum

/-- The busiest day-of-week bucket by total amount (first maximum wins). -/
def argmaxDow (l : List SEntry) : ℤ :=
  (((List.range 7).map (fun i => ((i : ℤ), dayTotalDow l (i : ℤ)))).foldl
    (fun acc p => if acc.2 < p.2 then p else acc) (0, dayTotalDow l 0)).1

/-- Modelled from the spec: the peak_day card. -/
def peakCards (l : List SEntry) : List InsightCardS :=
  if l.isEmpty then []
  else [⟨.peak_day, "Peak activity days",
    "Busiest day-of-week index " ++ String.mk (renderInt (argmaxDow l))⟩]

/-- Modelled from the spec: the trend card — present only with at least 14
days of history, comparing the most recent 14 days against the prior 14,
with the percentage change rounded to the nearest integer. -/
def trendCards (l : List SEntry) : List InsightCardS :=
  if l.isEmpty then []
  else if 14 ≤ (maxTime l - minTime l) / 86400 then
    let hi := maxTime l
    let recent := ((l.filter (fun e => decide (hi - 14 * 86400 < e.time))).map
      SEntry.amount).sum
    let prior := ((l.filter (fun e =>
      decide (hi - 28 * 86400 < e.time) && decide (e.time ≤ hi - 14 * 86400))).map
      SEntry.amount).sum
    let pct : ℤ := if prior = 0 then 0 else round ((recent - prior) / prior * 100)
    [⟨.trend, "Revenue trend",
      (if pct < 0 then "decrease of " else "increase of ") ++
        String.mk (renderInt |pct|) ++ " percent"⟩]
  else []

/-- Modelled from the spec: the coverage card — the channel list, with a
diversification suggestion when fewer than two channels are present. -/
def coverageCards (l : List SEntry) : List InsightCardS :=
  if l.isEmpty then []
  else [⟨.coverage, "Channel coverage",
    if (channelsOf l).length < 2 then "Consider diversifying sales channels"
    else "Multiple channels detected"⟩]

open Classical in
/-- Modelled from the spec: the recommendation card — emitted when evidence
strength or cross-source is below 60 percent of its maximum. -/
noncomputable def recommendationCards (l : List SEntry) : List InsightCardS :=
  if evidenceScore l < 15 ∨ crossSourceScore l < 9 then
    [⟨.recommendation, "Boost your score",
      "Upload a bank statement to add a high-confidence source"⟩]
  else []

/-- Modelled from the spec: the Insights Generator with its deterministic
ordering peak_day, trend, coverage, recommendation. -/
noncomputable def generate_insights (l : List SEntry) : List InsightCardS :=
  peakCards l ++ trendCards l ++ coverageCards l ++ recommendationCards l

/-- Modelled from the spec: the full output of one compute request — the
credibility score with its breakdown, flags and insights, plus the links
persisted alongside. -/
structure SScore where
  score : ℤ
  confidence_level : ConfidenceLevel
  breakdown : SBreakdown
  flags : List String
  insights : List InsightCardS
  links : List EventLink

open Classical in
/-- Modelled from the spec: compute_score — sanitize and canonicalize the
snapshot, run the linker and the anomaly detector, sum the six components,
clamp to 0..100, round to the nearest integer, and derive the confidence
level from score and entry count. -/
noncomputable def compute_score (entries : List SEntry) : SScore :=
  let c := canonicalEntries entries
  let brk : SBreakdown := ⟨activityScore c, consistencyScore c, longevityScore c,
    evidenceScore c, crossSourceScore c, penaltyTotal c⟩
  let raw := brk.activity + brk.consistency + brk.longevity +
    brk.evidence_strength + brk.cross_source + brk.penalties
  let sc : ℤ := round (max 0 (min 100 raw))
  { score := sc
    confidence_level :=
      if 60 ≤ sc ∧ 20 ≤ c.length then .HIGH
      else if 30 ≤ sc ∨ 5 ≤ c.length then .MEDIUM
      else .LOW
    breakdown := brk
    flags := (detect c).map Prod.fst
    insights := generate_insights c
    links := (pairsOf c).filterMap (fun p => mkLink p.1 p.2) }

end SEM

-- ─── THEOREMS ─────────────────────────────────────────────

namespace SEM

/-- Claim C3 counterexample: the amount 0 is finite and non-negative, yet
validateCurrency rejects it, so validation does not accept exactly the
non-negative amounts. -/
theorem C3_counterexample :
    (0 : ℚ) ≤ 0 ∧ (validateCurrency (.finite 0)).valid = false := by
  constructor
  · exact le_refl 0
  · decide

/-- Claim C3 (amended): validateCurrency accepts a finite amount exactly when
it is strictly positive and at most 1,000,000; rejected amounts always carry
an error message. -/
theorem C3_validateCurrency_range (q : ℚ) :
    ((validateCurrency (.finite q)).valid = true ↔ (0 < q ∧ q ≤ 1000000)) ∧
    ((validateCurrency (.finite q)).valid = false →
      (validateCurrency (.finite q)).error.isSome) := by
  have hv : validateCurrency (.finite q) =
      (if q ≤ 0 then ⟨false, some "Amount must be greater than RM 0.00"⟩
       else if 1000000 < q then ⟨false, some "Amount cannot exceed RM 1,000,000.00"⟩
       else ⟨true, none⟩) := rfl
  rw [hv]
  by_cases h1 : q ≤ 0
  · refine ⟨?_, ?_⟩
    · simp only [if_pos h1]
      constructor
      · intro hc; first | exact hc.elim | simp at hc
      · intro hc; exact absurd h1 (not_le.mpr hc.1)
    · simp only [if_pos h1]
      intro _; trivial
  · by_cases h2 : 1000000 < q
    · refine ⟨?_, ?_⟩
      · simp only [if_neg h1, if_pos h2]
        constructor
        · intro hc; first | exact hc.elim | simp at hc
        · intro hc; exact absurd h2 (not_lt.mpr hc.2)
      · simp only [if_neg h1, if_pos h2]
        intro _; trivial
    · refine ⟨?_, ?_⟩
      · simp only [if_neg h1, if_neg h2]
        constructor
        · intro _; exact ⟨not_le.mp h1, not_lt.mp h2⟩
        · intro _; trivial
      · simp only [if_neg h1, if_neg h2]
        intro hc; first | exact hc.elim | simp at hc

theorem digit_ne {c x : Char} (h : c.isDigit = true) (hx : x.isDigit = false) :
    c ≠ x := by
  intro he
  rw [he, hx] at h
  exact Bool.false_ne_true h

theorem dchar_isDigit {d : ℕ} (h : d < 10) : (dchar d).isDigit = true := by
  interval_cases d <;> decide

theorem dval_dchar {d : ℕ} (h : d < 10) : dval (dchar d) = d := by
  interval_cases d <;> decide

theorem digit_not_strip {c : Char} (h : c.isDigit = true) : stripChar c = false := by
  by_contra hb
  have ht : stripChar c = true := by
    cases hx : stripChar c
    · exact absurd hx hb
    · rfl
  simp only [stripChar, Bool.or_eq_true, beq_iff_eq] at ht
  rcases ht with ((((((h1 | h1) | h1) | h1) | h1) | h1) | h1) <;>
    (subst h1; exact absurd h (by decide))

theorem renderNat_digits (n : ℕ) : ∀ c ∈ renderNat n, c.isDigit = true := by
  intro c hc
  unfold renderNat at hc
  split at hc
  · simp only [List.mem_singleton] at hc
    subst hc
    decide
  · simp only [List.mem_map, List.mem_reverse] at hc
    obtain ⟨d, hd, rfl⟩ := hc
    exact dchar_isDigit (Nat.digits_lt_base (by norm_num) hd)

theorem renderNat_ne_nil (n : ℕ) : renderNat n ≠ [] := by
  unfold renderNat
  split
  · simp
  · rename_i h
    simp [Nat.digits_ne_nil_iff_ne_zero.mpr h]

theorem cleanChars_of_digits {l : List Char} (h : ∀ c ∈ l, c.isDigit = true) :
    cleanChars l = l := by
  induction l with
  | nil => rfl
  | cons c cs ih =>
    have hc : stripChar c = false := digit_not_strip (h c (List.mem_cons_self c cs))
    simp only [cleanChars, List.filter_cons, hc, Bool.not_false, if_pos]
    exact congrArg (c :: ·) (ih (fun x hx => h x (List.mem_cons_of_mem c hx)))

theorem cleanChars_group3Aux (l : List Char) (h : ∀ c ∈ l, c.isDigit = true) :
    cleanChars (group3Aux l) = l := by
  induction l using group3Aux.induct with
  | case1 a b c d rest ih =>
    have ha := digit_not_strip (h a (by simp))
    have hb := digit_not_strip (h b (by simp))
    have hc := digit_not_strip (h c (by simp))
    have ih2 := ih (fun x hx => h x (by simp only [List.mem_cons] at hx ⊢; tauto))
    have hcomma : stripChar ',' = true := by decide
    simp only [cleanChars] at ih2 ⊢
    simp [group3Aux, List.filter_cons, ha, hb, hc, hcomma, ih2]
  | case2 l hne =>
    have heq : group3Aux l = l := by
      match l, hne with
      | [], _ => simp [group3Aux]
      | [a], _ => simp [group3Aux]
      | [a, b], _ => simp [group3Aux]
      | [a, b, c], _ => simp [group3Aux]
      | a :: b :: c :: d :: rest, hne => exact absurd rfl (hne a b c d rest)
    rw [heq]
    exact cleanChars_of_digits h

theorem cleanChars_group3 (l : List Char) (h : ∀ c ∈ l, c.isDigit = true) :
    cleanChars (group3 l) = l := by
  unfold group3 cleanChars
  rw [List.filter_reverse]
  have := cleanChars_group3Aux l.reverse (fun c hc => h c (List.mem_reverse.mp hc))
  unfold cleanChars at this
  rw [this, List.reverse_reverse]

theorem takeDigits_split (ds rest : List Char) (h : ∀ c ∈ ds, c.isDigit = true)
    (hr : ∀ c t, rest = c :: t → c.isDigit = false) :
    takeDigits (ds ++ rest) = (ds, rest) := by
  induction ds with
  | nil =>
    simp only [List.nil_append]
    cases rest with
    | nil => rfl
    | cons c t =>
      have hc := hr c t rfl
      simp [takeDigits, hc]
  | cons c cs ih =>
    have hc := h c (List.mem_cons_self c cs)
    have ih2 := ih (fun x hx => h x (List.mem_cons_of_mem c hx))
    simp [takeDigits, hc, ih2]

theorem foldr_digits_eq_ofDigits (l : List ℕ) :
    l.foldr (fun d a => 10 * a + d) 0 = Nat.ofDigits 10 l := by
  induction l with
  | nil => rfl
  | cons d t ih =>
    simp only [List.foldr_cons, Nat.ofDigits_cons, ih]
    omega

theorem foldr_dval_dchar (l : List ℕ) (hl : ∀ d ∈ l, d < 10) :
    l.foldr (fun x y => 10 * y + dval (dchar x)) 0 =
      l.foldr (fun x y => 10 * y + x) 0 := by
  induction l with
  | nil => rfl
  | cons d t ih =>
    have hdd : d < 10 := hl d (List.mem_cons_self d t)
    simp only [List.foldr_cons, dval_dchar hdd,
      ih (fun x hx => hl x (List.mem_cons_of_mem d hx))]

theorem digitsVal_renderNat (n : ℕ) : digitsVal (renderNat n) = n := by
  unfold renderNat digitsVal
  split
  · rename_i h
    subst h
    decide
  · rw [List.foldl_map, List.foldl_reverse]
    have hd : ∀ d ∈ Nat.digits 10 n, d < 10 :=
      fun d hdm => Nat.digits_lt_base (by norm_num) hdm
    rw [foldr_dval_dchar _ hd, foldr_digits_eq_ofDigits, Nat.ofDigits_digits]

theorem natSplit100 (n : ℕ) :
    ((n / 100 : ℕ) : ℚ) + ((n % 100 : ℕ) : ℚ) / 100 = (n : ℚ) / 100 := by
  have h : 100 * (n / 100) + n % 100 = n := Nat.div_add_mod n 100
  have h2 : ((100 * (n / 100) + n % 100 : ℕ) : ℚ) = (n : ℚ) := by exact_mod_cast congrArg (Nat.cast) h
  push_cast at h2
  field_simp
  linarith

theorem parseFloat_canonical_pos (m r1 r2 : ℕ) (h1 : r1 < 10) (h2 : r2 < 10) :
    parseFloatQ (renderNat m ++ '.' :: [dchar r1, dchar r2]) =
      some ((m : ℚ) + ((10 * r1 + r2 : ℕ) : ℚ) / 100) := by
  obtain ⟨c, t, hct⟩ : ∃ c t, renderNat m = c :: t := by
    cases hh : renderNat m with
    | nil => exact absurd hh (renderNat_ne_nil m)
    | cons c t => exact ⟨c, t, rfl⟩
  have hcd : c.isDigit = true := renderNat_digits m c (by rw [hct]; simp)
  have hcd1 : c ≠ '-' := digit_ne hcd (by decide)
  have hcd2 : c ≠ '+' := digit_ne hcd (by decide)
  have htail : takeDigits (renderNat m ++ '.' :: [dchar r1, dchar r2]) =
      (renderNat m, '.' :: [dchar r1, dchar r2]) :=
    takeDigits_split _ _ (renderNat_digits m) (by
      intro c0 t0 he
      simp only [List.cons.injEq] at he
      rw [← he.1]
      decide)
  have hfrac : takeDigits [dchar r1, dchar r2] = ([dchar r1, dchar r2], []) := by
    have := takeDigits_split [dchar r1, dchar r2] [] (by
      intro c0 hc0
      simp only [List.mem_cons, List.not_mem_nil, or_false] at hc0
      rcases hc0 with rfl | rfl
      · exact dchar_isDigit h1
      · exact dchar_isDigit h2) (by intro _ _ he; cases he)
    simpa using this
  have hdv : digitsVal [dchar r1, dchar r2] = 10 * r1 + r2 := by
    simp [digitsVal, dval_dchar h1, dval_dchar h2]
  have hne : renderNat m ≠ [] := renderNat_ne_nil m
  rw [hct]
  simp only [List.cons_append, parseFloatQ]
  rw [if_neg hcd1, if_neg hcd2]
  simp only
  rw [← List.cons_append, ← hct, htail]
  simp only [if_pos rfl]
  rw [hfrac]
  simp only [List.isEmpty_iff]
  rw [if_neg (by
    intro hcon
    exact hne hcon.1)]
  rw [digitsVal_renderNat]
  simp only [if_true, List.length_cons, List.length_nil]
  rw [hdv]
  push_cast
  norm_num

theorem parseFloat_canonical_neg (m r1 r2 : ℕ) (h1 : r1 < 10) (h2 : r2 < 10) :
    parseFloatQ ('-' :: (renderNat m ++ '.' :: [dchar r1, dchar r2])) =
      some (-((m : ℚ) + ((10 * r1 + r2 : ℕ) : ℚ) / 100)) := by
  have htail : takeDigits (renderNat m ++ '.' :: [dchar r1, dchar r2]) =
      (renderNat m, '.' :: [dchar r1, dchar r2]) :=
    takeDigits_split _ _ (renderNat_digits m) (by
      intro c0 t0 he
      simp only [List.cons.injEq] at he
      rw [← he.1]
      decide)
  have hfrac : takeDigits [dchar r1, dchar r2] = ([dchar r1, dchar r2], []) := by
    have := takeDigits_split [dchar r1, dchar r2] [] (by
      intro c0 hc0
      simp only [List.mem_cons, List.not_mem_nil, or_false] at hc0
      rcases hc0 with rfl | rfl
      · exact dchar_isDigit h1
      · exact dchar_isDigit h2) (by intro _ _ he; cases he)
    simpa using this
  have hdv : digitsVal [dchar r1, dchar r2] = 10 * r1 + r2 := by
    simp [digitsVal, dval_dchar h1, dval_dchar h2]
  have hne : renderNat m ≠ [] := renderNat_ne_nil m
  simp only [parseFloatQ, if_true]
  rw [htail]
  simp only [if_pos rfl]
  rw [hfrac]
  simp only [List.isEmpty_iff]
  rw [if_neg (by
    intro hcon
    exact hne hcon.1)]
  rw [digitsVal_renderNat]
  simp only [if_true, List.length_cons, List.length_nil]
  rw [hdv]
  push_cast
  ring_nf

theorem cast_natAbs_of_neg {c : ℤ} (hc : c < 0) : ((c.natAbs : ℕ) : ℚ) = -(c : ℚ) := by
  rw [Int.cast_natAbs, Int.cast_abs]
  exact abs_of_neg (by exact_mod_cast hc)

theorem cast_natAbs_of_nonneg {c : ℤ} (hc : 0 ≤ c) : ((c.natAbs : ℕ) : ℚ) = (c : ℚ) := by
  rw [Int.cast_natAbs, Int.cast_abs]
  exact abs_of_nonneg (by exact_mod_cast hc)

/-- Claim C9: currency formatting round-trips with parsing: for every amount
exactly representable with at most two decimal places (c cents for an integer
c), parseCurrency recovers the amount from formatCurrency's output; every
non-finite input to formatCurrency yields the neutral string RM 0.00; and
parseCurrency maps every string that parseFloat cannot parse to 0. -/
theorem C9_currency_roundtrip :
    (∀ c : ℤ, parseCurrency (formatCurrencyChars (.finite ((c : ℚ) / 100))) =
      (c : ℚ) / 100) ∧
    formatCurrencyChars .nan = "RM 0.00".data ∧
    formatCurrencyChars .posInf = "RM 0.00".data ∧
    formatCurrencyChars .negInf = "RM 0.00".data ∧
    (∀ l : List Char, parseFloatQ (cleanChars l) = none → parseCurrency l = 0) := by
  refine ⟨?_, rfl, rfl, rfl, ?_⟩
  · intro c
    have habs : |(c : ℚ) / 100| * 100 = ((c.natAbs : ℕ) : ℚ) := by
      rw [abs_div, abs_of_pos (show (0:ℚ) < 100 by norm_num),
        div_mul_cancel₀ _ (show (100:ℚ) ≠ 0 by norm_num)]
      exact (Int.cast_natAbs.trans Int.cast_abs).symm
    have hn : ((round (|(c : ℚ) / 100| * 100) : ℤ)).toNat = c.natAbs := by
      rw [habs]
      rw [show ((c.natAbs : ℕ) : ℚ) = ((c.natAbs : ℤ) : ℚ) from
        (Int.cast_natCast _).symm, round_intCast]
      exact Int.toNat_natCast _
    have hfmt : formatCurrencyChars (.finite ((c : ℚ) / 100)) =
        (if (c : ℚ) / 100 < 0 then ['-'] else []) ++ "RM ".data ++
          (group3 (renderNat (c.natAbs / 100)) ++
            '.' :: [dchar (c.natAbs % 100 / 10), dchar (c.natAbs % 100 % 10)]) := by
      simp only [formatCurrencyChars]
      rw [hn]
    have hdig1 : c.natAbs % 100 / 10 < 10 := by omega
    have hdig2 : c.natAbs % 100 % 10 < 10 := by omega
    have h1 : List.filter (fun x => !stripChar x)
        (if (c : ℚ) / 100 < 0 then ['-'] else []) =
        (if (c : ℚ) / 100 < 0 then ['-'] else []) := by
      split <;> rfl
    have h3 := cleanChars_group3 (renderNat (c.natAbs / 100)) (renderNat_digits _)
    simp only [cleanChars] at h3
    have h4 : List.filter (fun x => !stripChar x)
        ('.' :: [dchar (c.natAbs % 100 / 10), dchar (c.natAbs % 100 % 10)]) =
        '.' :: [dchar (c.natAbs % 100 / 10), dchar (c.natAbs % 100 % 10)] := by
      simp [List.filter_cons, digit_not_strip (dchar_isDigit hdig1),
        digit_not_strip (dchar_isDigit hdig2),
        show stripChar '.' = false by decide]
    have hclean : cleanChars (formatCurrencyChars (.finite ((c : ℚ) / 100))) =
        (if (c : ℚ) / 100 < 0 then ['-'] else []) ++
          (renderNat (c.natAbs / 100) ++
            '.' :: [dchar (c.natAbs % 100 / 10), dchar (c.natAbs % 100 % 10)]) := by
      rw [hfmt]
      simp only [cleanChars, List.filter_append, h1, h3, h4]
      rw [show List.filter (fun x => !stripChar x) "RM ".data = [] from rfl]
      simp
    have hsplit : 10 * (c.natAbs % 100 / 10) + c.natAbs % 100 % 10 =
        c.natAbs % 100 := by omega
    by_cases hc : c < 0
    · have hcond : (c : ℚ) / 100 < 0 :=
        div_neg_of_neg_of_pos (by exact_mod_cast hc) (by norm_num)
      rw [parseCurrency, hclean, if_pos hcond, List.singleton_append,
        parseFloat_canonical_neg _ _ _ hdig1 hdig2]
      rw [hsplit, natSplit100, cast_natAbs_of_neg hc]
      ring
    · have hcond : ¬ ((c : ℚ) / 100 < 0) := by
        intro hlt
        exact hc (by
          by_contra hge
          have hnn : (0:ℚ) ≤ (c : ℚ) / 100 :=
            div_nonneg (by exact_mod_cast not_lt.mp hge) (by norm_num)
          linarith)
      rw [parseCurrency, hclean, if_neg hcond, List.nil_append,
        parseFloat_canonical_pos _ _ _ hdig1 hdig2]
      rw [hsplit, natSplit100, cast_natAbs_of_nonneg (not_lt.mp hc)]
  · intro l hl
    rw [parseCurrency, hl]

/-- Witness for C9: the amount RM -1234.56 survives a format-parse round
trip, and the non-numeric string abc parses to 0. -/
theorem C9_currency_roundtrip_witness :
    parseCurrency (formatCurrencyChars (.finite ((-123456 : ℤ) / 100 : ℚ))) =
      ((-123456 : ℤ) : ℚ) / 100 ∧
    parseCurrency "abc".data = 0 := by
  constructor
  · have h := C9_currency_roundtrip.1 (-123456)
    exact_mod_cast h
  · exact C9_currency_roundtrip.2.2.2.2 "abc".data (by decide)

theorem dval_lt_ten {c : Char} (h : c.isDigit = true) : dval c < 10 := by
  have h2 : 48 ≤ c.toNat ∧ c.toNat ≤ 57 := by
    simp only [Char.isDigit, Bool.and_eq_true, decide_eq_true_eq] at h
    exact ⟨h.1, h.2⟩
  unfold dval
  omega

set_option maxHeartbeats 1600000 in
theorem daysInMonth_ge {y m : ℤ} : 28 ≤ daysInMonth y m := by
  unfold daysInMonth
  split_ifs <;> omega

set_option maxHeartbeats 1600000 in
theorem daysInMonth_le {y m : ℤ} : daysInMonth y m ≤ 31 := by
  unfold daysInMonth
  split_ifs <;> omega

set_option maxHeartbeats 1600000 in
theorem dayNumber_year_bounds (dt : CivilDate) (h : normalizedDate dt) :
    daysBeforeYear dt.y ≤ dayNumber dt ∧
      dayNumber dt < daysBeforeYear (dt.y + 1) := by
  obtain ⟨h1, h2, h3, h4⟩ := h
  obtain ⟨y, m, d⟩ := dt
  simp only at h1 h2 h3 h4 ⊢
  unfold daysInMonth at h4
  unfold dayNumber monthOffset daysBeforeYear
  simp only
  by_cases hL : isLeap y
  · have hL2 := hL
    unfold isLeap at hL2
    obtain ⟨hA, hB⟩ := hL2
    simp only [hL, and_true] at h4 ⊢
    rcases hB with hB | hB <;>
      (interval_cases m <;> simp_all <;> omega)
  · have hL2 : ¬ (y % 4 = 0 ∧ (y % 100 ≠ 0 ∨ y % 400 = 0)) := hL
    simp only [hL, and_false, if_false] at h4 ⊢
    interval_cases m <;> simp_all <;> omega

theorem daysBeforeYear_mono {a b : ℤ} (h : a ≤ b) :
    daysBeforeYear a ≤ daysBeforeYear b := by
  unfold daysBeforeYear
  omega

theorem dayNumber_lt_of_year_lt {d1 d2 : CivilDate} (hv1 : normalizedDate d1)
    (hv2 : normalizedDate d2) (hy : d1.y < d2.y) :
    dayNumber d1 < dayNumber d2 := by
  have h1 := dayNumber_year_bounds d1 hv1
  have h2 := dayNumber_year_bounds d2 hv2
  have h3 : daysBeforeYear (d1.y + 1) ≤ daysBeforeYear d2.y :=
    daysBeforeYear_mono (by omega)
  omega

theorem rollDays_linear_mono (f : ℕ) : ∀ y m d : ℤ,
    12 * y + m ≤ 12 * (rollDays f y m d).y + (rollDays f y m d).m := by
  induction f with
  | zero => intro y m d; simp [rollDays]
  | succ f ih =>
    intro y m d
    simp only [rollDays]
    split
    · split
      · rename_i hm
        have := ih (y + 1) 1 (d - daysInMonth y m)
        omega
      · have := ih y (m + 1) (d - daysInMonth y m)
        omega
    · simp

theorem rollDays_month_range (f : ℕ) : ∀ y m d : ℤ, 1 ≤ m → m ≤ 12 →
    1 ≤ (rollDays f y m d).m ∧ (rollDays f y m d).m ≤ 12 := by
  induction f with
  | zero => intro y m d h1 h2; simp [rollDays]; omega
  | succ f ih =>
    intro y m d h1 h2
    simp only [rollDays]
    split
    · split
      · exact ih (y + 1) 1 (d - daysInMonth y m) (by omega) (by omega)
      · rename_i hm
        exact ih y (m + 1) (d - daysInMonth y m) (by omega) (by omega)
    · simp
      omega

theorem rollDays_y_ge (f : ℕ) : ∀ y m d : ℤ, y ≤ (rollDays f y m d).y := by
  induction f with
  | zero => intro y m d; simp [rollDays]
  | succ f ih =>
    intro y m d
    simp only [rollDays]
    split
    · split
      · have := ih (y + 1) 1 (d - daysInMonth y m)
        omega
      · have := ih y (m + 1) (d - daysInMonth y m)
        omega
    · simp

theorem rollDays_of_le (f : ℕ) (y m d : ℤ) (h : d ≤ daysInMonth y m) :
    rollDays f y m d = ⟨y, m, d⟩ := by
  cases f with
  | zero => rfl
  | succ f => simp [rollDays, not_lt.mpr h]

theorem yAdj_of_ge {year : ℤ} (h : 100 ≤ year) : yAdj year = year := by
  unfold yAdj
  rw [if_neg (by omega)]

theorem jsMakeDate_of_valid {year month0 day : ℤ} (hy : 100 ≤ year)
    (hm0 : 0 ≤ month0) (hm1 : month0 ≤ 11) (hd0 : 1 ≤ day)
    (hd1 : day ≤ daysInMonth year (month0 + 1)) :
    jsMakeDate year month0 day = ⟨year, month0 + 1, day⟩ := by
  simp only [jsMakeDate, yAdj_of_ge hy]
  have h12 : (year * 12 + month0) / 12 = year := by omega
  have h12b : (year * 12 + month0) % 12 = month0 := by omega
  rw [h12, h12b]
  rw [if_neg (show ¬ day ≤ 0 by omega)]
  exact rollDays_of_le 8 year (month0 + 1) day hd1

set_option maxHeartbeats 1600000 in
theorem jsMakeDate_getters {year month0 day : ℤ}
    (hy0 : 0 ≤ year) (hm0 : -1 ≤ month0) (hm1 : month0 ≤ 98)
    (hd0 : 0 ≤ day) (hd1 : day ≤ 99) :
    ((jsMakeDate year month0 day).d = day ∧
     (jsMakeDate year month0 day).m - 1 = month0 ∧
     (jsMakeDate year month0 day).y = year) ↔
    (100 ≤ year ∧ 0 ≤ month0 ∧ month0 ≤ 11 ∧ 1 ≤ day ∧
      day ≤ daysInMonth year (month0 + 1)) := by
  constructor
  · rintro ⟨hD, hM, hY⟩
    by_cases hy99 : year ≤ 99
    · exfalso
      have hya : yAdj year = 1900 + year := by
        unfold yAdj
        rw [if_pos ⟨hy0, hy99⟩]
      have hYlow : 1899 + year ≤ ((1900 + year) * 12 + month0) / 12 := by omega
      revert hD hM hY
      simp only [jsMakeDate, hya]
      set yy := ((1900 + year) * 12 + month0) / 12 with hyy
      set mm := ((1900 + year) * 12 + month0) % 12 + 1 with hmm
      split
      · split
        · intro _ _ hY
          simp only at hY
          omega
        · intro _ _ hY
          simp only at hY
          omega
      · intro _ _ hY
        have := rollDays_y_ge 8 yy mm day
        rw [hY] at this
        omega
    · push_neg at hy99
      have hyge : 100 ≤ year := by omega
      have hya : yAdj year = year := yAdj_of_ge hyge
      have hmmr : 1 ≤ (year * 12 + month0) % 12 + 1 ∧
          (year * 12 + month0) % 12 + 1 ≤ 12 := by omega
      by_cases hday : day ≤ 0
      · exfalso
        revert hD hM hY
        simp only [jsMakeDate, hya]
        rw [if_pos hday]
        have hd0' : day = 0 := by omega
        split
        · intro hD _ _
          simp only at hD
          omega
        · rename_i hmm1
          intro hD _ _
          simp only at hD
          have := @daysInMonth_ge ((year * 12 + month0) / 12)
            ((year * 12 + month0) % 12 + 1 - 1)
          omega
      · push_neg at hday
        have hmeq : (jsMakeDate year month0 day) =
            rollDays 8 ((year * 12 + month0) / 12)
              ((year * 12 + month0) % 12 + 1) day := by
          simp only [jsMakeDate, hya]
          rw [if_neg (by omega)]
        have hrange := rollDays_month_range 8 ((year * 12 + month0) / 12)
          ((year * 12 + month0) % 12 + 1) day hmmr.1 hmmr.2
        rw [hmeq] at hD hM hY
        have hm011 : 0 ≤ month0 ∧ month0 ≤ 11 := by omega
        have hYM : (year * 12 + month0) / 12 = year ∧
            (year * 12 + month0) % 12 = month0 := by omega
        by_cases hdim : daysInMonth year (month0 + 1) < day
        · exfalso
          rw [hYM.1, hYM.2] at hD hM hY hrange
          have hstep : rollDays 8 year (month0 + 1) day =
              if (month0 + 1) = 12 then
                rollDays 7 (year + 1) 1 (day - daysInMonth year (month0 + 1))
              else rollDays 7 year (month0 + 1 + 1)
                (day - daysInMonth year (month0 + 1)) := by
            show rollDays (7 + 1) year (month0 + 1) day = _
            simp only [rollDays]
            rw [if_pos hdim]
          rw [hstep] at hM hY
          by_cases hm12 : (month0 + 1) = 12
          · rw [if_pos hm12] at hM hY
            have := rollDays_linear_mono 7 (year + 1) 1
              (day - daysInMonth year (month0 + 1))
            omega
          · rw [if_neg hm12] at hM hY
            have := rollDays_linear_mono 7 year (month0 + 1 + 1)
              (day - daysInMonth year (month0 + 1))
            omega
        · push_neg at hdim
          exact ⟨hyge, hm011.1, hm011.2, hday, hdim⟩
  · rintro ⟨h1, h2, h3, h4, h5⟩
    rw [jsMakeDate_of_valid h1 h2 h3 h4 h5]
    refine ⟨rfl, ?_, rfl⟩
    show month0 + 1 - 1 = month0
    omega

theorem tenYearsAgo_y (now : CivilDate) : (tenYearsAgo now).y = now.y - 10 := by
  unfold tenYearsAgo
  split <;> rfl

set_option maxHeartbeats 1600000 in
theorem tenYearsAgo_normalized {now : CivilDate} (h : normalizedDate now) :
    normalizedDate (tenYearsAgo now) := by
  obtain ⟨h1, h2, h3, h4⟩ := h
  unfold tenYearsAgo
  split
  · refine ⟨by norm_num, by norm_num, by norm_num, ?_⟩
    unfold daysInMonth
    norm_num
  · rename_i hcond
    refine ⟨h1, h2, h3, ?_⟩
    simp only
    by_cases hm2 : now.m = 2
    · unfold daysInMonth at h4 ⊢
      simp only [hm2] at h4 ⊢
      norm_num at h4 ⊢
      by_cases hL : isLeap (now.y - 10)
      · rw [if_pos hL]
        split_ifs at h4 <;> omega
      · rw [if_neg hL]
        have hd29 : now.d ≠ 29 := by
          intro hd
          exact hcond ⟨hm2, hd, hL⟩
        split_ifs at h4 <;> omega
    · unfold daysInMonth at h4 ⊢
      split_ifs at h4 ⊢ <;> omega

set_option maxHeartbeats 1600000 in
/-- Claim C8: validateDate accepts a string if and only if it matches the
DD/MM/YYYY shape, denotes a real calendar date, is not later than the current
day, and is not more than ten years in the past (the ten-year boundary taken
as setFullYear computes it); every rejected input carries an error message.
Stated for any current day with year at least 110, so that the two-digit-year
behaviour of the Date constructor cannot interfere. -/
theorem C8_validateDate (s : List Char) (now : CivilDate)
    (hnow : normalizedDate now) (hy : 110 ≤ now.y) :
    ((validateDate s now).valid = true ↔
      (matchesDDMMYYYY s = true ∧
        realDate (dateFields s).1 (dateFields s).2.1 (dateFields s).2.2 ∧
        dayNumber ⟨(dateFields s).2.2, (dateFields s).2.1, (dateFields s).1⟩ ≤
          dayNumber now ∧
        dayNumber (tenYearsAgo now) ≤
          dayNumber ⟨(dateFields s).2.2, (dateFields s).2.1, (dateFields s).1⟩)) ∧
    ((validateDate s now).valid = false →
      (validateDate s now).error.isSome = true) := by
  by_cases hfmt : matchesDDMMYYYY s = true
  · have hfm2 := hfmt
    simp only [matchesDDMMYYYY, Bool.and_eq_true, beq_iff_eq] at hfm2
    obtain ⟨⟨⟨⟨⟨⟨⟨⟨⟨⟨hlen, h0⟩, h1⟩, hs2⟩, h3⟩, h4⟩, hs5⟩, h6⟩, h7⟩, h8⟩, h9⟩ := hfm2
    have hv0 := dval_lt_ten h0
    have hv1 := dval_lt_ten h1
    have hv3 := dval_lt_ten h3
    have hv4 := dval_lt_ten h4
    have hv6 := dval_lt_ten h6
    have hv7 := dval_lt_ten h7
    have hv8 := dval_lt_ten h8
    have hv9 := dval_lt_ten h9
    set D : ℤ := (dateFields s).1 with hDdef
    set M : ℤ := (dateFields s).2.1 with hMdef
    set Y : ℤ := (dateFields s).2.2 with hYdef
    have hDeq : D = ((10 * dval (s.getD 0 ' ') + dval (s.getD 1 ' ') : ℕ) : ℤ) := rfl
    have hMeq : M = ((10 * dval (s.getD 3 ' ') + dval (s.getD 4 ' ') : ℕ) : ℤ) := rfl
    have hYeq : Y = ((1000 * dval (s.getD 6 ' ') + 100 * dval (s.getD 7 ' ') +
        10 * dval (s.getD 8 ' ') + dval (s.getD 9 ' ') : ℕ) : ℤ) := rfl
    have hDb : 0 ≤ D ∧ D ≤ 99 := by
      rw [hDeq]
      omega
    have hMb : 0 ≤ M ∧ M ≤ 99 := by
      rw [hMeq]
      omega
    have hYb : 0 ≤ Y ∧ Y ≤ 9999 := by
      rw [hYeq]
      omega
    have hval : validateDate s now =
        (if (jsMakeDate Y (M - 1) D).d ≠ D ∨
            (jsMakeDate Y (M - 1) D).m - 1 ≠ M - 1 ∨
            (jsMakeDate Y (M - 1) D).y ≠ Y then
          ⟨false, some "Please enter a valid date"⟩
        else if dayNumber now < dayNumber (jsMakeDate Y (M - 1) D) then
          ⟨false, some "Date cannot be in the future"⟩
        else if dayNumber (jsMakeDate Y (M - 1) D) < dayNumber (tenYearsAgo now) then
          ⟨false, some "Date cannot be more than 10 years ago"⟩
        else ⟨true, none⟩) := by
      simp only [validateDate]
      rw [if_pos hfmt]
    have hgs := @jsMakeDate_getters Y (M - 1) D
      hYb.1 (by omega) (by omega) hDb.1 hDb.2
    have hM1 : M - 1 + 1 = M := by omega
    by_cases hB : (100 ≤ Y ∧ 0 ≤ M - 1 ∧ M - 1 ≤ 11 ∧ 1 ≤ D ∧
        D ≤ daysInMonth Y (M - 1 + 1))
    · have hdate : jsMakeDate Y (M - 1) D = ⟨Y, M, D⟩ := by
        have h := jsMakeDate_of_valid hB.1 hB.2.1 hB.2.2.1 hB.2.2.2.1 hB.2.2.2.2
        rw [hM1] at h
        exact h
      have h5 := hB.2.2.2.2
      rw [hM1] at h5
      have hreal : realDate D M Y := ⟨by omega, by omega, hB.2.2.2.1, h5⟩
      rw [hdate] at hval
      rw [if_neg (show ¬(((⟨Y, M, D⟩ : CivilDate)).d ≠ D ∨
          ((⟨Y, M, D⟩ : CivilDate)).m - 1 ≠ M - 1 ∨
          ((⟨Y, M, D⟩ : CivilDate)).y ≠ Y) by simp)] at hval
      by_cases hfut : dayNumber now < dayNumber ⟨Y, M, D⟩
      · rw [if_pos hfut] at hval
        rw [hval]
        constructor
        · constructor
          · intro h
            simp at h
          · rintro ⟨_, _, hle, _⟩
            omega
        · intro _
          rfl
      · rw [if_neg hfut] at hval
        by_cases hpast : dayNumber ⟨Y, M, D⟩ < dayNumber (tenYearsAgo now)
        · rw [if_pos hpast] at hval
          rw [hval]
          constructor
          · constructor
            · intro h
              simp at h
            · rintro ⟨_, _, _, hge⟩
              omega
          · intro _
            rfl
        · rw [if_neg hpast] at hval
          rw [hval]
          constructor
          · constructor
            · intro _
              exact ⟨hfmt, hreal, by omega, by omega⟩
            · intro _
              rfl
          · intro h
            simp at h
    · have hC : (jsMakeDate Y (M - 1) D).d ≠ D ∨
          (jsMakeDate Y (M - 1) D).m - 1 ≠ M - 1 ∨
          (jsMakeDate Y (M - 1) D).y ≠ Y := by
        by_contra hno
        push_neg at hno
        exact hB (hgs.mp ⟨hno.1, hno.2.1, hno.2.2⟩)
      rw [if_pos hC] at hval
      rw [hval]
      constructor
      · constructor
        · intro h
          simp at h
        · rintro ⟨_, hreal, hle, hge⟩
          exfalso
          obtain ⟨hr1, hr2, hr3, hr4⟩ := hreal
          by_cases hY100 : 100 ≤ Y
          · exact hB ⟨hY100, by omega, by omega, hr3, by rw [hM1]; exact hr4⟩
          · have hvd : normalizedDate ⟨Y, M, D⟩ := ⟨hr1, hr2, hr3, hr4⟩
            have hvt : normalizedDate (tenYearsAgo now) := tenYearsAgo_normalized hnow
            have hlt : dayNumber ⟨Y, M, D⟩ < dayNumber (tenYearsAgo now) := by
              apply dayNumber_lt_of_year_lt hvd hvt
              rw [tenYearsAgo_y]
              simp only
              omega
            omega
      · intro _
        rfl
  · have hval : validateDate s now =
        ⟨false, some "Please enter date in DD/MM/YYYY format"⟩ := by
      simp only [validateDate]
      rw [if_neg hfmt]
    rw [hval]
    constructor
    · constructor
      · intro h
        simp at h
      · rintro ⟨hm, _⟩
        exact absurd hm hfmt
    · intro _
      rfl

/-- Witness for C8 at a concrete current day and date string: on
2026-10-12 the input 15/03/2020 is accepted. -/
theorem C8_validateDate_witness :
    (validateDate "15/03/2020".data ⟨2026, 10, 12⟩).valid = true := by
  have h := C8_validateDate "15/03/2020".data ⟨2026, 10, 12⟩ (by decide) (by norm_num)
  exact (h.1).mpr (by decide)

/-- Witness for C3 at the concrete amount 50: accepted, and inside the
amended range. -/
theorem C3_validateCurrency_range_witness :
    (validateCurrency (.finite 50)).valid = true ∧ (0 : ℚ) < 50 ∧ (50 : ℚ) ≤ 1000000 :=
  ⟨(C3_validateCurrency_range 50).1.mpr (by norm_num), by norm_num, by norm_num⟩

/-- Claim C10: getRetryDelay returns no delay for auth errors (status 401 or
403) and for errors that are neither auth nor network errors; for a network
error that is not an auth error it returns min(1000 · 2^attempt, 10000),
which is positive and never exceeds 10000 ms. -/
theorem C10_getRetryDelay (e : JsError) (n : ℕ) :
    (isAuthError e = true → getRetryDelay e n = none) ∧
    (isAuthError e = false → isNetworkError e = false → getRetryDelay e n = none) ∧
    (isAuthError e = false → isNetworkError e = true →
      getRetryDelay e n = some (min (1000 * 2 ^ n) 10000) ∧
      0 < min (1000 * 2 ^ n) 10000 ∧ min (1000 * 2 ^ n) 10000 ≤ 10000) := by
  refine ⟨?_, ?_, ?_⟩
  · intro h
    simp [getRetryDelay, h]
  · intro h1 h2
    simp [getRetryDelay, h1, h2]
  · intro h1 h2
    refine ⟨by simp [getRetryDelay, h1, h2], ?_, min_le_right _ _⟩
    have hp : 0 < 1000 * 2 ^ n := by positivity
    omega

/-- Witness for C10 at concrete errors: a 401 error is not retried, a plain
error is not retried, and a network error on attempt 2 retries after
4000 ms. -/
theorem C10_getRetryDelay_witness :
    getRetryDelay ⟨false, some 401, "x".data⟩ 3 = none ∧
    getRetryDelay ⟨true, none, "bad input".data⟩ 3 = none ∧
    getRetryDelay ⟨true, none, "Network Error".data⟩ 2 = some 4000 := by
  refine ⟨(C10_getRetryDelay _ 3).1 (by decide),
          (C10_getRetryDelay _ 3).2.1 (by decide) (by decide), ?_⟩
  have h := (C10_getRetryDelay ⟨true, none, "Network Error".data⟩ 2).2.2
    (by decide) (by decide)
  rw [h.1]
  decide

/-- Claim C5 counterexample: the evidence completion-rate percentage is not
special-cased when the evidence list is empty: 0/0 gives NaN, which survives
Math.round and is rendered, so the report shows the user-visible text
NaN% completion rate instead of a defined neutral value. -/
theorem C5_counterexample :
    completionRate [] = JsNum.nan ∧
    completionRateText [] = "NaN% completion rate".data := by
  constructor
  · rfl
  · rfl

/-- Claim C5 (amended): divisions feeding a formatted currency string cannot
propagate NaN or Infinity, because formatCurrency maps every non-finite input
to the neutral string RM 0.00; but the evidence completion-rate percentage is
not special-cased: on an empty evidence list it evaluates to NaN and the
report renders NaN% completion rate. -/
theorem C5_division_guards :
    formatCurrencyChars .nan = "RM 0.00".data ∧
    formatCurrencyChars .posInf = "RM 0.00".data ∧
    formatCurrencyChars .negInf = "RM 0.00".data ∧
    completionRate [] = JsNum.nan ∧
    completionRateText [] = "NaN% completion rate".data :=
  ⟨rfl, rfl, rfl, rfl, rfl⟩

theorem decodeLevel_encodeLevel (l : ConfidenceLevel) :
    decodeLevel (encodeLevel l) = some l := by
  cases l <;> rfl

theorem decodeType_encodeType (t : InsightType) :
    decodeType (encodeType t) = some t := by
  cases t <;> rfl

theorem decodeBreakdown_encodeBreakdown (b : ScoreBreakdown) :
    decodeBreakdown (encodeBreakdown b) = some b := by
  cases b
  simp [decodeBreakdown, encodeBreakdown, jGetNum, jGet, List.lookup]

theorem decodeCard_encodeCard (c : InsightCard) :
    decodeCard (encodeCard c) = some c := by
  cases c with
  | mk t ti de da =>
    cases da <;>
      simp [decodeCard, encodeCard, jGet, jGetStr, List.lookup,
        decodeType_encodeType]

theorem decodeAll_decodeFlag (l : List String) :
    decodeAll decodeFlag (l.map Json.str) = some l := by
  induction l with
  | nil => rfl
  | cons h t ih => simp [decodeAll, decodeFlag, ih]

theorem decodeAll_decodeCard (l : List InsightCard) :
    decodeAll decodeCard (l.map encodeCard) = some l := by
  induction l with
  | nil => rfl
  | cons h t ih => simp [decodeAll, decodeCard_encodeCard, ih]

/-- Claim C4: serializing a CredibilityScore to the output schema, as
exportAsJSON does through JSON.stringify, and re-parsing the result
reproduces identical values for every field: score, confidence_level, each
breakdown component, flags, insights, and computed_at (together with the
persistence fields); there is no lossy rounding. -/
theorem C4_roundtrip (s : CredibilityScore) :
    decodeScore (encodeScore s) = some s := by
  cases s
  simp [decodeScore, encodeScore, jGetStr, jGetNum, jGet, List.lookup,
    decodeLevel_encodeLevel, decodeBreakdown_encodeBreakdown,
    decodeAll_decodeFlag, decodeAll_decodeCard, Rat.den_intCast, Rat.num_intCast]

/-- Claim C6 counterexample: two CredibilityScore values that agree on every
field the output contract lists (score, confidence_level, breakdown, flags,
insights, computed_at) can still differ, because the record also carries the
fields id and business; so the record does not consist of exactly the
contract fields. -/
theorem C6_counterexample :
    ∃ s t : CredibilityScore,
      s.score = t.score ∧ s.confidence_level = t.confidence_level ∧
      s.breakdown = t.breakdown ∧ s.flags = t.flags ∧
      s.insights = t.insights ∧ s.computed_at = t.computed_at ∧ s ≠ t := by
  refine ⟨⟨"a", "b1", 0, .LOW, ⟨0, 0, 0, 0, 0, 0⟩, [], [], "t"⟩,
          ⟨"c", "b1", 0, .LOW, ⟨0, 0, 0, 0, 0, 0⟩, [], [], "t"⟩,
          rfl, rfl, rfl, rfl, rfl, rfl, ?_⟩
  intro h
  have hid := congrArg CredibilityScore.id h
  simp at hid

/-- Claim C6 (amended): the CredibilityScore record consists of exactly the
output-contract fields (score, confidence_level, breakdown, flags, insights,
computed_at) together with the persistence fields id and business: those
eight fields determine the value. -/
theorem C6_fields (s t : CredibilityScore)
    (hid : s.id = t.id) (hbus : s.business = t.business)
    (hscore : s.score = t.score)
    (hlevel : s.confidence_level = t.confidence_level)
    (hbrk : s.breakdown = t.breakdown) (hflags : s.flags = t.flags)
    (hins : s.insights = t.insights) (hat : s.computed_at = t.computed_at) :
    s = t := by
  cases s
  cases t
  simp_all

/-- Witness for C6 at two concrete records agreeing on all eight fields. -/
theorem C6_fields_witness :
    (⟨"a", "b", 7, .MEDIUM, ⟨1, 2, 3, 4, 5, 0⟩, ["f"], [], "t"⟩ :
      CredibilityScore) =
    ⟨"a", "b", 7, .MEDIUM, ⟨1, 2, 3, 4, 5, 0⟩, ["f"], [], "t"⟩ :=
  C6_fields _ _ rfl rfl rfl rfl rfl rfl rfl rfl

theorem insertById_perm (x : SEntry) (l : List SEntry) :
    (insertById x l).Perm (x :: l) := by
  induction l with
  | nil => exact List.Perm.refl _
  | cons y ys ih =>
    unfold insertById
    split
    · exact List.Perm.refl _
    · exact (List.Perm.cons y ih).trans (List.Perm.swap x y ys)

theorem sortById_perm (l : List SEntry) : (sortById l).Perm l := by
  induction l with
  | nil => exact List.Perm.refl _
  | cons x xs ih =>
    unfold sortById
    simp only [List.foldr_cons]
    exact (insertById_perm x _).trans (List.Perm.cons x ih)

theorem insertById_sorted (x : SEntry) (l : List SEntry)
    (h : l.Pairwise (fun a b => a.id ≤ b.id)) :
    (insertById x l).Pairwise (fun a b => a.id ≤ b.id) := by
  induction l with
  | nil => simp [insertById]
  | cons y ys ih =>
    unfold insertById
    have hc := List.pairwise_cons.mp h
    split
    · rename_i hxy
      refine List.pairwise_cons.mpr ⟨?_, h⟩
      intro b hb
      rcases List.mem_cons.mp hb with rfl | hbys
      · exact hxy
      · exact le_trans hxy (hc.1 b hbys)
    · rename_i hxy
      refine List.pairwise_cons.mpr ⟨?_, ih hc.2⟩
      intro b hb
      have hb2 := (insertById_perm x ys).mem_iff.mp hb
      rcases List.mem_cons.mp hb2 with rfl | hbys
      · omega
      · exact hc.1 b hbys

theorem sortById_sorted (l : List SEntry) :
    (sortById l).Pairwise (fun a b => a.id ≤ b.id) := by
  induction l with
  | nil => simp [sortById]
  | cons x xs ih =>
    unfold sortById at ih ⊢
    simp only [List.foldr_cons]
    exact insertById_sorted x _ ih

theorem sortById_strict {l : List SEntry} (hnd : (l.map SEntry.id).Nodup) :
    (sortById l).Pairwise (fun a b => a.id < b.id) := by
  have hA := sortById_sorted l
  have hndm : ((sortById l).map SEntry.id).Nodup :=
    (List.Perm.nodup_iff ((sortById_perm l).map _)).mpr hnd
  have hB : (sortById l).Pairwise (fun a b => a.id ≠ b.id) :=
    List.pairwise_map.mp hndm
  exact (hA.and hB).imp (fun hab => by omega)

theorem sortById_eq_of_perm {l1 l2 : List SEntry} (h : l1.Perm l2)
    (hnd : (l2.map SEntry.id).Nodup) : sortById l1 = sortById l2 := by
  haveI : IsAntisymm SEntry (fun a b => a.id < b.id) :=
    ⟨fun a b h1 h2 => absurd h2 (by omega)⟩
  have hp : (sortById l1).Perm (sortById l2) :=
    (sortById_perm l1).trans (h.trans (sortById_perm l2).symm)
  have hnd1 : (l1.map SEntry.id).Nodup := (List.Perm.nodup_iff (h.map _)).mpr hnd
  exact List.eq_of_perm_of_sorted hp (sortById_strict hnd1) (sortById_strict hnd)

theorem canonical_eq_of_perm {l1 l2 : List SEntry} (h : l1.Perm l2)
    (hnd : (l2.map SEntry.id).Nodup) :
    canonicalEntries l1 = canonicalEntries l2 := by
  unfold canonicalEntries sanitize
  exact sortById_eq_of_perm (h.filter _)
    (List.Nodup.sublist ((List.filter_sublist l2).map SEntry.id) hnd)

theorem mem_canonical_valid {l : List SEntry} {e : SEntry}
    (h : e ∈ canonicalEntries l) :
    0 ≤ e.amount ∧ 0 ≤ e.confidence ∧ e.confidence ≤ 1 := by
  have h2 : e ∈ sanitize l := (sortById_perm _).mem_iff.mp h
  have h3 := List.of_mem_filter h2
  simp only [validEntry, Bool.and_eq_true, decide_eq_true_eq] at h3
  exact ⟨h3.1.1, h3.1.2, h3.2⟩

theorem mem_of_canonical {l : List SEntry} {e : SEntry}
    (h : e ∈ canonicalEntries l) : e ∈ l := by
  have h2 : e ∈ sanitize l := (sortById_perm _).mem_iff.mp h
  exact List.mem_of_mem_filter h2

theorem canonical_pairwise_ne {l : List SEntry}
    (hnd : (l.map SEntry.id).Nodup) :
    (canonicalEntries l).Pairwise (fun a b => a.id ≠ b.id) := by
  have hs : ((sanitize l).map SEntry.id).Nodup :=
    List.Nodup.sublist ((List.filter_sublist l).map SEntry.id) hnd
  have hc : ((canonicalEntries l).map SEntry.id).Nodup :=
    (List.Perm.nodup_iff ((sortById_perm (sanitize l)).map _)).mpr hs
  exact List.pairwise_map.mp hc

/-- Claim C2: compute_score is deterministic and order-independent: repeated
invocation on the same entries yields identical output, and any permutation
of a ledger with distinct entry identifiers yields the same score, flags,
links and insight ordering, because the pipeline canonicalizes the snapshot
by entry id before computing. -/
theorem C2_determinism (l l2 : List SEntry) (hnd : (l.map SEntry.id).Nodup)
    (hperm : l2.Perm l) :
    compute_score l2 = compute_score l ∧ compute_score l = compute_score l := by
  refine ⟨?_, rfl⟩
  have hc : canonicalEntries l2 = canonicalEntries l := canonical_eq_of_perm hperm hnd
  simp only [compute_score, hc]

/-- Witness for C2 at a concrete two-entry ledger and its transposition. -/
theorem C2_determinism_witness :
    compute_score [⟨2, 1, 86400, 50, 1, 0, []⟩, ⟨1, 0, 0, 24, 1, 1, []⟩] =
      compute_score [⟨1, 0, 0, 24, 1, 1, []⟩, ⟨2, 1, 86400, 50, 1, 0, []⟩] :=
  (C2_determinism [⟨1, 0, 0, 24, 1, 1, []⟩, ⟨2, 1, 86400, 50, 1, 0, []⟩]
    [⟨2, 1, 86400, 50, 1, 0, []⟩, ⟨1, 0, 0, 24, 1, 1, []⟩]
    (by decide)
    (List.Perm.swap (⟨1, 0, 0, 24, 1, 1, []⟩ : SEntry) ⟨2, 1, 86400, 50, 1, 0, []⟩ [])).1

theorem round_bounds {x : ℝ} (h0 : 0 ≤ x) (h1 : x ≤ 100) :
    0 ≤ round x ∧ round x ≤ 100 := by
  rw [round_eq]
  constructor
  · have he : (0 : ℤ) = ⌊(1 : ℝ) / 2⌋ := by norm_num
    rw [he]
    exact Int.floor_mono (by linarith)
  · have h2 : ⌊x + 1 / 2⌋ ≤ ⌊(100 : ℝ) + 1 / 2⌋ := Int.floor_mono (by linarith)
    have h3 : ⌊(100 : ℝ) + 1 / 2⌋ = 100 := by
      rw [Int.floor_eq_iff]
      norm_num
    omega

theorem activityScore_bounds (l : List SEntry) :
    0 ≤ activityScore l ∧ activityScore l ≤ 30 := by
  unfold activityScore
  split
  · norm_num
  · constructor
    · apply le_min (by norm_num)
      positivity
    · exact min_le_left _ _

theorem consist_helper (ws : List ℝ) :
    0 ≤ (if ws.length = 0 then (0 : ℝ)
        else if listMeanR ws = 0 then 0
        else 20 * (1 - min 1 (max 0 (listStdR ws / listMeanR ws)))) ∧
    (if ws.length = 0 then (0 : ℝ)
        else if listMeanR ws = 0 then 0
        else 20 * (1 - min 1 (max 0 (listStdR ws / listMeanR ws)))) ≤ 20 := by
  split
  · norm_num
  · split
    · norm_num
    · set u : ℝ := min 1 (max 0 (listStdR ws / listMeanR ws)) with hu
      have hu0 : 0 ≤ u := le_min (by norm_num) (le_max_left _ _)
      have hu1 : u ≤ 1 := min_le_left _ _
      constructor
      · nlinarith
      · nlinarith

theorem consistencyScore_bounds (l : List SEntry) :
    0 ≤ consistencyScore l ∧ consistencyScore l ≤ 20 := by
  unfold consistencyScore
  exact consist_helper ((weeklyTotals l).map (fun q => (q : ℝ)))

theorem foldr_min_le (a : ℤ) (xs : List ℤ) : xs.foldr min a ≤ a := by
  induction xs with
  | nil => exact le_refl a
  | cons x t ih => exact le_trans (min_le_right _ _) ih

theorem le_foldr_max (a : ℤ) (xs : List ℤ) : a ≤ xs.foldr max a := by
  induction xs with
  | nil => exact le_refl a
  | cons x t ih => exact le_trans ih (le_max_right _ _)

theorem minTime_le_maxTime (l : List SEntry) : minTime l ≤ maxTime l := by
  cases l with
  | nil => exact le_refl 0
  | cons e es =>
    unfold minTime maxTime
    exact le_trans (foldr_min_le e.time (es.map SEntry.time))
      (le_foldr_max e.time (es.map SEntry.time))

theorem longevityScore_bounds (l : List SEntry) :
    0 ≤ longevityScore l ∧ longevityScore l ≤ 20 := by
  unfold longevityScore
  split
  · norm_num
  · constructor
    · apply le_min (by norm_num)
      have hspan : (0 : ℝ) ≤ ((maxTime l - minTime l : ℤ) : ℝ) := by
        have := minTime_le_maxTime l
        exact_mod_cast by omega
      positivity
    · exact min_le_left _ _

theorem evidenceScore_bounds {l : List SEntry}
    (h : ∀ e ∈ l, 0 ≤ e.confidence ∧ e.confidence ≤ 1) :
    0 ≤ evidenceScore l ∧ evidenceScore l ≤ 25 := by
  unfold evidenceScore
  split
  · norm_num
  · rename_i hne
    have hN : 0 < (l.length : ℝ) := by
      have : 0 < l.length := Nat.pos_of_ne_zero hne
      exact_mod_cast this
    have hsum0 : 0 ≤ (l.map SEntry.confidence).sum := by
      apply List.sum_nonneg
      intro x hx
      obtain ⟨e, he, rfl⟩ := List.mem_map.mp hx
      exact (h e he).1
    have hsum1 : (l.map SEntry.confidence).sum ≤ (l.length : ℚ) := by
      have h2 := List.sum_le_card_nsmul (l.map SEntry.confidence) 1 (by
        intro x hx
        obtain ⟨e, he, rfl⟩ := List.mem_map.mp hx
        exact (h e he).2)
      simpa [nsmul_eq_mul] using h2
    constructor
    · have : (0 : ℝ) ≤ (((l.map SEntry.confidence).sum : ℚ) : ℝ) := by exact_mod_cast hsum0
      positivity
    · have hS : (((l.map SEntry.confidence).sum : ℚ) : ℝ) ≤ (l.length : ℝ) := by
        exact_mod_cast hsum1
      rw [show (25 : ℝ) * ((((l.map SEntry.confidence).sum : ℚ) : ℝ) / (l.length : ℝ)) =
        25 * (((l.map SEntry.confidence).sum : ℚ) : ℝ) / (l.length : ℝ) by ring]
      rw [div_le_iff₀ hN]
      nlinarith

theorem crossSourceScore_bounds (l : List SEntry) :
    0 ≤ crossSourceScore l ∧ crossSourceScore l ≤ 15 := by
  unfold crossSourceScore
  constructor
  · apply le_min (by norm_num)
    positivity
  · exact min_le_left _ _

theorem spikeExcess_nonneg (l : List SEntry) : 0 ≤ spikeExcess l := by
  unfold spikeExcess
  induction (daysOf l).map (zExcess l) with
  | nil => exact le_refl 0
  | cons x t ih => exact le_trans ih (le_max_right _ _)

theorem detect_severity_nonneg (l : List SEntry) : ∀ p ∈ detect l, 0 ≤ p.2 := by
  intro p hp
  unfold detect at hp
  simp only [List.mem_append] at hp
  rcases hp with ((hp | hp) | hp) | hp
  · split at hp
    · rename_i hc
      simp only [List.mem_singleton] at hp
      subst hp
      exact le_min (by norm_num) (le_of_lt hc)
    · simp at hp
  · split at hp
    · simp only [List.mem_singleton] at hp
      subst hp
      norm_num
    · simp at hp
  · split at hp
    · simp only [List.mem_singleton] at hp
      subst hp
      exact le_min (by norm_num) (by positivity)
    · simp at hp
  · split at hp
    · simp only [List.mem_singleton] at hp
      subst hp
      norm_num
    · simp at hp

theorem penaltyTotal_bounds (l : List SEntry) :
    -20 ≤ penaltyTotal l ∧ penaltyTotal l ≤ 0 := by
  unfold penaltyTotal
  constructor
  · exact le_max_left _ _
  · apply max_le (by norm_num)
    have hS : 0 ≤ ((detect l).map Prod.snd).sum := by
      apply List.sum_nonneg
      intro x hx
      obtain ⟨p, hp, rfl⟩ := List.mem_map.mp hx
      exact detect_severity_nonneg l p hp
    linarith

/-- Claim C1: every computed CredibilityScore satisfies the stated bounds:
the final score lies in 0..100 and each breakdown component lies within its
range — activity in 0..30, consistency in 0..20, longevity in 0..20,
evidence strength in 0..25, cross-source in 0..15, and penalties in -20..0. -/
theorem C1_score_bounds (entries : List SEntry) :
    0 ≤ (compute_score entries).score ∧ (compute_score entries).score ≤ 100 ∧
    0 ≤ (compute_score entries).breakdown.activity ∧
      (compute_score entries).breakdown.activity ≤ 30 ∧
    0 ≤ (compute_score entries).breakdown.consistency ∧
      (compute_score entries).breakdown.consistency ≤ 20 ∧
    0 ≤ (compute_score entries).breakdown.longevity ∧
      (compute_score entries).breakdown.longevity ≤ 20 ∧
    0 ≤ (compute_score entries).breakdown.evidence_strength ∧
      (compute_score entries).breakdown.evidence_strength ≤ 25 ∧
    0 ≤ (compute_score entries).breakdown.cross_source ∧
      (compute_score entries).breakdown.cross_source ≤ 15 ∧
    -20 ≤ (compute_score entries).breakdown.penalties ∧
      (compute_score entries).breakdown.penalties ≤ 0 := by
  have hb := round_bounds
    (x := max 0 (min 100 (activityScore (canonicalEntries entries) +
      consistencyScore (canonicalEntries entries) +
      longevityScore (canonicalEntries entries) +
      evidenceScore (canonicalEntries entries) +
      crossSourceScore (canonicalEntries entries) +
      penaltyTotal (canonicalEntries entries))))
    (le_max_left _ _) (max_le (by norm_num) (min_le_left _ _))
  have hev := evidenceScore_bounds
    (l := canonicalEntries entries)
    (fun e he => ⟨(mem_canonical_valid he).2.1, (mem_canonical_valid he).2.2⟩)
  simp only [compute_score]
  exact ⟨hb.1, hb.2,
    (activityScore_bounds _).1, (activityScore_bounds _).2,
    (consistencyScore_bounds _).1, (consistencyScore_bounds _).2,
    (longevityScore_bounds _).1, (longevityScore_bounds _).2,
    hev.1, hev.2,
    (crossSourceScore_bounds _).1, (crossSourceScore_bounds _).2,
    (penaltyTotal_bounds _).1, (penaltyTotal_bounds _).2⟩

theorem pairsOf_mem {α : Type} {p : α × α} : ∀ {l : List α},
    p ∈ pairsOf l → p.1 ∈ l ∧ p.2 ∈ l := by
  intro l
  induction l with
  | nil => intro h; simp [pairsOf] at h
  | cons x xs ih =>
    intro h
    simp only [pairsOf, List.mem_append, List.mem_map] at h
    rcases h with ⟨y, hy, rfl⟩ | h
    · exact ⟨List.mem_cons_self x xs, List.mem_cons_of_mem x hy⟩
    · obtain ⟨h1, h2⟩ := ih h
      exact ⟨List.mem_cons_of_mem x h1, List.mem_cons_of_mem x h2⟩

theorem pairsOf_rel {α : Type} {R : α → α → Prop} : ∀ {l : List α},
    l.Pairwise R → ∀ p ∈ pairsOf l, R p.1 p.2 := by
  intro l
  induction l with
  | nil => intro _ p hp; simp [pairsOf] at hp
  | cons x xs ih =>
    intro h p hp
    have hc := List.pairwise_cons.mp h
    simp only [pairsOf, List.mem_append, List.mem_map] at hp
    rcases hp with ⟨y, hy, rfl⟩ | hp
    · exact hc.1 y hy
    · exact ih hc.2 p hp

theorem pairsOf_pairwise_keys : ∀ {l : List SEntry},
    l.Pairwise (fun a b => a.id ≠ b.id) →
    (pairsOf l).Pairwise (fun p q =>
      ¬(min p.1.id p.2.id = min q.1.id q.2.id ∧
        max p.1.id p.2.id = max q.1.id q.2.id)) := by
  intro l
  induction l with
  | nil => intro _; simp [pairsOf]
  | cons x xs ih =>
    intro h
    have hc := List.pairwise_cons.mp h
    simp only [pairsOf]
    rw [List.pairwise_append]
    refine ⟨?_, ih hc.2, ?_⟩
    · rw [List.pairwise_map]
      have hPx : xs.Pairwise (fun y1 y2 =>
          y1.id ≠ y2.id ∧ x.id ≠ y1.id ∧ x.id ≠ y2.id) := by
        refine List.Pairwise.imp_of_mem ?_ hc.2
        intro a b ha hb hab
        exact ⟨hab, hc.1 a ha, hc.1 b hb⟩
      refine hPx.imp ?_
      intro a b hab
      show ¬(min x.id a.id = min x.id b.id ∧ max x.id a.id = max x.id b.id)
      omega
    · intro p hp q hq
      simp only [List.mem_map] at hp
      obtain ⟨y, hy, rfl⟩ := hp
      have hq12 := pairsOf_mem hq
      have hne1 : x.id ≠ q.1.id := hc.1 q.1 hq12.1
      have hne2 : x.id ≠ q.2.id := hc.1 q.2 hq12.2
      show ¬(min x.id y.id = min q.1.id q.2.id ∧ max x.id y.id = max q.1.id q.2.id)
      omega

theorem mkLink_some {x y : SEntry} {lk : EventLink} (h : mkLink x y = some lk) :
    lk.entryA = min x.id y.id ∧ lk.entryB = max x.id y.id ∧
      x.source ≠ y.source := by
  unfold mkLink at h
  split at h
  · exact absurd h (by simp)
  · rename_i hsrc
    split at h
    · exact absurd h (by simp)
    · split at h
      · injection h with h2
        subst h2
        exact ⟨rfl, rfl, hsrc⟩
      · exact absurd h (by simp)

/-- Claim C7: for every ledger with distinct entry identifiers, the Event
Linker produces links in which no entry is linked to itself, at most one
link exists per unordered pair of entries (links store the canonically
ordered id pair and no two links share it), and every link connects two
entries from different evidence sources. -/
theorem C7_link_invariants (l : List SEntry) (hnd : (l.map SEntry.id).Nodup) :
    (∀ lk ∈ link l, lk.entryA ≠ lk.entryB) ∧
    ((link l).Pairwise (fun l1 l2 =>
      ¬(l1.entryA = l2.entryA ∧ l1.entryB = l2.entryB))) ∧
    (∀ lk ∈ link l, ∃ x ∈ l, ∃ y ∈ l,
      x.id = lk.entryA ∧ y.id = lk.entryB ∧ x.source ≠ y.source) := by
  have hndc := canonical_pairwise_ne hnd
  refine ⟨?_, ?_, ?_⟩
  · intro lk hlk
    obtain ⟨p, hp, hmk⟩ := List.mem_filterMap.mp hlk
    have hids := pairsOf_rel hndc p hp
    obtain ⟨hA, hB, _⟩ := mkLink_some hmk
    omega
  · unfold link
    rw [List.pairwise_filterMap]
    have hkeys := pairsOf_pairwise_keys hndc
    refine hkeys.imp ?_
    intro p q hpq
    intro lk hlk lk2 hlk2
    obtain ⟨hA, hB, _⟩ := mkLink_some (Option.mem_def.mp hlk)
    obtain ⟨hA2, hB2, _⟩ := mkLink_some (Option.mem_def.mp hlk2)
    intro hcon
    exact hpq ⟨by omega, by omega⟩
  · intro lk hlk
    obtain ⟨p, hp, hmk⟩ := List.mem_filterMap.mp hlk
    obtain ⟨hm1, hm2⟩ := pairsOf_mem hp
    obtain ⟨hA, hB, hsrc⟩ := mkLink_some hmk
    have hl1 : p.1 ∈ l := mem_of_canonical hm1
    have hl2 : p.2 ∈ l := mem_of_canonical hm2
    by_cases hle : p.1.id ≤ p.2.id
    · exact ⟨p.1, hl1, p.2, hl2, by omega, by omega, hsrc⟩
    · exact ⟨p.2, hl2, p.1, hl1, by omega, by omega, fun hss => hsrc hss.symm⟩

/-- Witness for C7 at a concrete two-entry, two-source ledger. -/
theorem C7_link_invariants_witness :
    (link [⟨1, 0, 0, 24, 1, 0, []⟩, ⟨2, 1, 600, 24, 1, 5, []⟩]).Pairwise
      (fun l1 l2 => ¬(l1.entryA = l2.entryA ∧ l1.entryB = l2.entryB)) :=
  (C7_link_invariants [⟨1, 0, 0, 24, 1, 0, []⟩, ⟨2, 1, 600, 24, 1, 5, []⟩]
    (by decide)).2.1

end SEM
